import Mathlib

/-! # x509-claims: Locator → Matcher → Parser claim extraction

A shallow embedding of the Go package `x509claims` (`cliam.go`, `locators.go`,
`matchers.go`, `parsers.go`) together with the parts of the Go standard library
(`strings`, `unicode/utf8`) its methods call.

Conventions of the embedding:

* a Go `string` is an immutable sequence of bytes: `GoString := List UInt8`;
  string comparison `==` is equality of the byte sequences;
* a Go slice `[]T` is a `List T`; a `nil` slice and an empty slice are both `[]`
  (the package only ranges over, appends to and returns slices);
* an interface is a record holding its method; a method of a concrete type `T`
  is the function `T.Method`, and `T.toI` packs a value as interface `I`;
* `for _, x := range xs { result = append(result, ...) }` is a left fold over `xs`
  whose accumulator is `result`;
* pointers are assumed non-nil (`cert`, the elements of `cert.URIs`).
-/

namespace X509Claims

/-! ## Go strings -/

/-- A Go string: a finite sequence of bytes. -/
abbrev GoString := List UInt8

/-- The bytes (UTF-8) of a string literal, the way the Go compiler stores it. -/
def lit (s : String) : GoString := s.data.flatMap String.utf8EncodeChar

/-! ### `strings.HasPrefix`, `strings.TrimPrefix`, `strings.HasSuffix`, `strings.TrimSuffix` -/

/-- Go: `len(s) >= len(prefix) && s[:len(prefix)] == prefix`. -/
def HasPrefix (s pre : GoString) : Bool :=
  decide (s.length ≥ pre.length) && (s.take pre.length == pre)

/-- Go: `if HasPrefix(s, prefix) { return s[len(prefix):] }; return s`. -/
def TrimPrefix (s pre : GoString) : GoString :=
  if HasPrefix s pre then s.drop pre.length else s

/-- Go: `len(s) >= len(suffix) && s[len(s)-len(suffix):] == suffix`. -/
def HasSuffix (s suf : GoString) : Bool :=
  decide (s.length ≥ suf.length) && (s.drop (s.length - suf.length) == suf)

/-- Go: `if HasSuffix(s, suffix) { return s[:len(s)-len(suffix)] }; return s`. -/
def TrimSuffix (s suf : GoString) : GoString :=
  if HasSuffix s suf then s.take (s.length - suf.length) else s

/-! ### `unicode/utf8`: the size of the first UTF-8 sequence -/

/-- Go: `utf8.RuneSelf`. -/
def RuneSelf : Nat := 0x80

/-- Go: `locb`, the lowest continuation byte. -/
def locb : Nat := 0x80

/-- Go: `hicb`, the highest continuation byte. -/
def hicb : Nat := 0xBF

/-- Go: `xx`, the entry of `first` for an invalid lead byte (size 1). -/
def xx : Nat := 0xF1

/-- Go: `as`, the entry of `first` for an ASCII byte (size 1). -/
def as : Nat := 0xF0

/-- Go: the table `first [256]uint8`; entries `s1 .. s7` are written as their values
`0x02, 0x13, 0x03, 0x23, 0x34, 0x04, 0x44` (accept-range index in the high nibble,
size in the low three bits). -/
def first (c : UInt8) : Nat :=
  let b := c.toNat
  if b < 0x80 then as
  else if b < 0xC2 then xx
  else if b < 0xE0 then 0x02
  else if b = 0xE0 then 0x13
  else if b < 0xED then 0x03
  else if b = 0xED then 0x23
  else if b < 0xF0 then 0x03
  else if b = 0xF0 then 0x34
  else if b < 0xF4 then 0x04
  else if b = 0xF4 then 0x44
  else xx

/-- Go: the table `acceptRanges [16]acceptRange` as pairs `(lo, hi)`; the entries the
source does not list are zero-valued. -/
def acceptRanges (i : Nat) : Nat × Nat :=
  match i with
  | 0 => (locb, hicb)
  | 1 => (0xA0, hicb)
  | 2 => (locb, 0x9F)
  | 3 => (0x90, hicb)
  | 4 => (locb, 0x8F)
  | _ => (0, 0)

/-- Go: the `size` result of `utf8.DecodeRuneInString(s)` (the rune itself is
discarded by the only caller, `explode`). -/
def DecodeRuneInStringSize (s : GoString) : Nat :=
  match s with
  | [] => 0
  | s0 :: _ =>
    let x := first s0
    if x ≥ as then 1
    else
      let sz := x &&& 7
      let accept := acceptRanges (x >>> 4)
      if s.length < sz then 1
      else
        let s1 := (s.getD 1 0).toNat
        if s1 < accept.1 ∨ accept.2 < s1 then 1
        else if sz ≤ 2 then 2
        else
          let s2 := (s.getD 2 0).toNat
          if s2 < locb ∨ hicb < s2 then 1
          else if sz ≤ 3 then 3
          else
            let s3 := (s.getD 3 0).toNat
            if s3 < locb ∨ hicb < s3 then 1 else 4

/-- One iteration of the loop of `utf8.RuneCountInString` at `s[i:]`: the number of
bytes by which `i` advances. -/
def RuneCountInString.advance (s : GoString) : Nat :=
  match s with
  | [] => 0
  | c :: _ =>
    if c.toNat < RuneSelf then 1
    else
      let x := first c
      if x = xx then 1
      else
        let size := x &&& 7
        if size > s.length then 1
        else
          let accept := acceptRanges (x >>> 4)
          let c1 := (s.getD 1 0).toNat
          if c1 < accept.1 ∨ accept.2 < c1 then 1
          else if size = 2 then 2
          else
            let c2 := (s.getD 2 0).toNat
            if c2 < locb ∨ hicb < c2 then 1
            else if size = 3 then 3
            else
              let c3 := (s.getD 3 0).toNat
              if c3 < locb ∨ hicb < c3 then 1 else size

/-- The loop `for i := 0; i < ns; n++ { ... }` of `utf8.RuneCountInString`, on the
remaining input `s[i:]`; every iteration advances, so `len(s)` iterations suffice. -/
def RuneCountInString.loop : Nat → GoString → Nat → Nat
  | 0, _, n => n
  | fuel + 1, s, n =>
    if s.length = 0 then n
    else RuneCountInString.loop fuel (s.drop (RuneCountInString.advance s)) (n + 1)

/-- Go: `utf8.RuneCountInString(s)`. -/
def RuneCountInString (s : GoString) : Nat :=
  RuneCountInString.loop s.length s 0

/-! ### `strings.Index`, `strings.Count`, `strings.Split`, `strings.Join` -/

/-- Go: `strings.Index(s, substr)`, the index of the first instance of `substr` in
`s`; `none` stands for the result `-1`. The library chooses among several search
routines that all return this index; the embedding is the direct scan, trying the
offsets `0, 1, 2, ...` in turn. -/
def Index (s substr : GoString) : Option Nat :=
  if HasPrefix s substr then some 0
  else
    match s with
    | [] => none
    | _ :: t => (Index t substr).map (· + 1)

/-- The loop of `strings.Count` for a separator of two or more bytes:
`for { i := Index(s, substr); if i == -1 { return n }; n++; s = s[i+len(substr):] }`.
Every iteration shortens `s`, so `len(s) + 1` iterations suffice. -/
def Count.loop (substr : GoString) : Nat → GoString → Nat → Nat
  | 0, _, n => n
  | fuel + 1, s, n =>
    match Index s substr with
    | none => n
    | some i => Count.loop substr fuel (s.drop (i + substr.length)) (n + 1)

/-- Go: `strings.Count(s, substr)`, the number of non-overlapping instances of
`substr` in `s`; the one-byte case is `bytealg.CountString`. -/
def Count (s substr : GoString) : Nat :=
  match substr with
  | [] => RuneCountInString s + 1
  | [c] => s.count c
  | _ => Count.loop substr (s.length + 1) s 0

/-- The loop `for i := 0; i < n-1; i++` of `strings.explode` followed by
`a[n-1] = s`; the first argument is the number of iterations left. -/
def explode.loop : Nat → GoString → List GoString
  | 0, s => [s]
  | k + 1, s =>
    let size := DecodeRuneInStringSize s
    s.take size :: explode.loop k (s.drop size)

/-- Go: `strings.explode(s, n)`, the UTF-8 sequences of `s`, at most `n` of them
(`n < 0`: all). -/
def explode (s : GoString) (n : Int) : List GoString :=
  let l := RuneCountInString s
  let n : Nat := if n < 0 ∨ n > (l : Int) then l else n.toNat
  if n > 0 then explode.loop (n - 1) s else []

/-- The loop of `strings.genSplit`,
`for i < n { m := Index(s, sep); if m < 0 { break }; a[i] = s[:m+sepSave];
s = s[m+len(sep):]; i++ }; a[i] = s; return a[:i+1]`;
the first argument is `n - i`, the number of iterations left. -/
def genSplit.loop (sep : GoString) (sepSave : Nat) : Nat → GoString → List GoString
  | 0, s => [s]
  | k + 1, s =>
    match Index s sep with
    | none => [s]
    | some m => s.take (m + sepSave) :: genSplit.loop sep sepSave k (s.drop (m + sep.length))

/-- Go: `strings.genSplit(s, sep, sepSave, n)`. -/
def genSplit (s sep : GoString) (sepSave : Nat) (n : Int) : List GoString :=
  if n = 0 then []
  else if sep = [] then explode s n
  else
    let n : Nat := if n < 0 then Count s sep + 1 else n.toNat
    let n : Nat := if n > s.length + 1 then s.length + 1 else n
    genSplit.loop sep sepSave (n - 1) s

/-- Go: `strings.Split(s, sep)`, that is `genSplit(s, sep, 0, -1)`. -/
def Split (s sep : GoString) : List GoString :=
  genSplit s sep 0 (-1)

/-- Go: `strings.Join(elems, sep)`. -/
def Join (elems : List GoString) (sep : GoString) : GoString :=
  match elems with
  | [] => []
  | [e] => e
  | e :: rest => rest.foldl (fun b s => b ++ sep ++ s) e

/-! ## The certificate (`crypto/x509`, `crypto/x509/pkix`, `net/url`) -/

/-- Go: `url.Userinfo`. -/
structure Userinfo where
  username : GoString
  password : GoString
  passwordSet : Bool
deriving DecidableEq

/-- Go: `url.URL`. -/
structure URL where
  Scheme : GoString
  Opaque : GoString
  User : Option Userinfo
  Host : GoString
  Path : GoString
  RawPath : GoString
  OmitHost : Bool
  ForceQuery : Bool
  RawQuery : GoString
  Fragment : GoString
  RawFragment : GoString
deriving DecidableEq

/-- Go: `pkix.Name`, the fields holding strings. -/
structure Name where
  Country : List GoString
  Organization : List GoString
  OrganizationalUnit : List GoString
  Locality : List GoString
  Province : List GoString
  StreetAddress : List GoString
  PostalCode : List GoString
  SerialNumber : GoString
  CommonName : GoString
deriving DecidableEq

/-- Go: `x509.Certificate`, the name and subject-alternative-name fields. -/
structure Certificate where
  Issuer : Name
  Subject : Name
  DNSNames : List GoString
  EmailAddresses : List GoString
  URIs : List URL
deriving DecidableEq

/-! ## `matchers.go` -/

/-- Go: `type Matcher[T any] interface { Match(value T) (T, bool) }`. -/
structure Matcher (T : Type) where
  Match : T → T × Bool

/-- Go: `type MatcherPrefix struct { Prefix string }`. -/
structure MatcherPrefix where
  Prefix : GoString

/-- Go: `return strings.TrimPrefix(value, m.Prefix), strings.HasPrefix(value, m.Prefix)`. -/
def MatcherPrefix.Match (m : MatcherPrefix) (value : GoString) : GoString × Bool :=
  (TrimPrefix value m.Prefix, HasPrefix value m.Prefix)

/-- Go: `var _ Matcher[string] = &MatcherPrefix{}`. -/
def MatcherPrefix.toMatcher (m : MatcherPrefix) : Matcher GoString :=
  ⟨m.Match⟩

/-- Go: `type MatcherSuffix struct { Suffix string }`. -/
structure MatcherSuffix where
  Suffix : GoString

/-- Go: `return strings.TrimSuffix(value, m.Suffix), strings.HasSuffix(value, m.Suffix)`. -/
def MatcherSuffix.Match (m : MatcherSuffix) (value : GoString) : GoString × Bool :=
  (TrimSuffix value m.Suffix, HasSuffix value m.Suffix)

/-- Go: `var _ Matcher[string] = &MatcherSuffix{}`. -/
def MatcherSuffix.toMatcher (m : MatcherSuffix) : Matcher GoString :=
  ⟨m.Match⟩

/-- Go: `type MatcherScheme struct { Scheme string }`. -/
structure MatcherScheme where
  Scheme : GoString

/-- Go: `return uri, uri.Scheme == m.Scheme`. -/
def MatcherScheme.Match (m : MatcherScheme) (uri : URL) : URL × Bool :=
  (uri, uri.Scheme == m.Scheme)

/-- Go: `var _ Matcher[*url.URL] = &MatcherScheme{}`. -/
def MatcherScheme.toMatcher (m : MatcherScheme) : Matcher URL :=
  ⟨m.Match⟩

/-- Go: `type MatcherAll[T any] struct{}`. -/
structure MatcherAll (T : Type) where

/-- Go: `return value, true`. -/
def MatcherAll.Match {T : Type} (_ : MatcherAll T) (value : T) : T × Bool :=
  (value, true)

/-- Go: `var _ Matcher[int] = &MatcherAll[int]{}`, at every type. -/
def MatcherAll.toMatcher {T : Type} (m : MatcherAll T) : Matcher T :=
  ⟨m.Match⟩

/-! ## `parsers.go` -/

/-- Go: `type Parser interface { Parse(value string) []string }`. -/
structure Parser where
  Parse : GoString → List GoString

/-- Go: `type ParserNoOp struct{}`. -/
structure ParserNoOp where

/-- Go: `return []string{value}`. -/
def ParserNoOp.Parse (_ : ParserNoOp) (value : GoString) : List GoString :=
  [value]

/-- Go: `var _ Parser = &ParserNoOp{}`. -/
def ParserNoOp.toParser (p : ParserNoOp) : Parser :=
  ⟨p.Parse⟩

/-- Go: `type ParserSplit struct { Separator string }`. -/
structure ParserSplit where
  Separator : GoString

/-- Go: `return strings.Split(value, p.Separator)`. -/
def ParserSplit.Parse (p : ParserSplit) (value : GoString) : List GoString :=
  Split value p.Separator

/-- Go: `var _ Parser = &ParserSplit{}`. -/
def ParserSplit.toParser (p : ParserSplit) : Parser :=
  ⟨p.Parse⟩

/-! ## `locators.go` -/

/-- Go: `type Locator[M any] interface { Locate(cert, matcher Matcher[M]) []string }`. -/
structure Locator (M : Type) where
  Locate : Certificate → Matcher M → List GoString

/-- Go: `type LocatorCommonName struct{}`. -/
structure LocatorCommonName where

/-- Go: `if value, ok := matcher.Match(cert.Subject.CommonName); ok { return []string{value} }`
then `return []string{}`. -/
def LocatorCommonName.Locate (_ : LocatorCommonName) (cert : Certificate)
    (matcher : Matcher GoString) : List GoString :=
  match matcher.Match cert.Subject.CommonName with
  | (value, true) => [value]
  | (_, false) => []

/-- Go: `var _ Locator[string] = &LocatorCommonName{}`. -/
def LocatorCommonName.toLocator (l : LocatorCommonName) : Locator GoString :=
  ⟨l.Locate⟩

/-- Go: `type LocatorSanUri struct{}`. -/
structure LocatorSanUri where

/-- Go: `for _, uri := range cert.URIs { if value, ok := matcher.Match(uri); ok {
result = append(result, value.String()) } }; return result`.
The method `(*url.URL).String` belongs to `net/url`; the package calls it and does not
define it, so it is the parameter `urlString`. -/
def LocatorSanUri.Locate (urlString : URL → GoString) (_ : LocatorSanUri) (cert : Certificate)
    (matcher : Matcher URL) : List GoString :=
  cert.URIs.foldl
    (fun result uri =>
      match matcher.Match uri with
      | (value, true) => result ++ [urlString value]
      | (_, false) => result)
    []

/-- Go: `var _ Locator[*url.URL] = &LocatorSanUri{}`. -/
def LocatorSanUri.toLocator (urlString : URL → GoString) (l : LocatorSanUri) : Locator URL :=
  ⟨l.Locate urlString⟩

/-- Go: `type LocatorSanEmail struct{}`. -/
structure LocatorSanEmail where

/-- Go: `for _, email := range cert.EmailAddresses { if value, ok := matcher.Match(email); ok {
result = append(result, value) } }; return result`. -/
def LocatorSanEmail.Locate (_ : LocatorSanEmail) (cert : Certificate)
    (matcher : Matcher GoString) : List GoString :=
  cert.EmailAddresses.foldl
    (fun result email =>
      match matcher.Match email with
      | (value, true) => result ++ [value]
      | (_, false) => result)
    []

/-- Go: `var _ Locator[string] = &LocatorSanEmail{}`. -/
def LocatorSanEmail.toLocator (l : LocatorSanEmail) : Locator GoString :=
  ⟨l.Locate⟩

/-! ## `cliam.go` -/

/-- Go: `type Definition interface { Claims(cert *x509.Certificate) []string }`. -/
structure Definition where
  Claims : Certificate → List GoString

/-- Go: `type DefinitionLMP[M any] struct { Locator Locator[M]; Matcher Matcher[M]; Parser Parser }`. -/
structure DefinitionLMP (M : Type) where
  Locator : Locator M
  Matcher : Matcher M
  Parser : Parser

/-- Go: `for _, value := range d.Locator.Locate(cert, d.Matcher) {
result = append(result, d.Parser.Parse(value)...) }; return result`. -/
def DefinitionLMP.Claims {M : Type} (d : DefinitionLMP M) (cert : Certificate) : List GoString :=
  (d.Locator.Locate cert d.Matcher).foldl
    (fun result value => result ++ d.Parser.Parse value)
    []

/-- A `*DefinitionLMP[M]` used as a `Definition`. -/
def DefinitionLMP.toDefinition {M : Type} (d : DefinitionLMP M) : Definition :=
  ⟨d.Claims⟩

/-- Go: `type ProviderBasic struct { Definitions []Definition }`. -/
structure ProviderBasic where
  Definitions : List Definition

/-- Go: `for _, def := range c.Definitions { result = append(result, def.Claims(cert)...) };
return result`. -/
def ProviderBasic.Claims (c : ProviderBasic) (cert : Certificate) : List GoString :=
  c.Definitions.foldl
    (fun result d => result ++ d.Claims cert)
    []

/-! ## Test data -/

/-- A `pkix.Name` with every field at its zero value. -/
def Name.zero : Name :=
  ⟨[], [], [], [], [], [], [], [], []⟩

/-- The certificate literal `&x509.Certificate{}`: every field at its zero value. -/
def Certificate.zero : Certificate :=
  ⟨Name.zero, Name.zero, [], [], []⟩

/-- The certificate literal `&x509.Certificate{EmailAddresses: emails}`. -/
def certWithEmails (emails : List GoString) : Certificate :=
  { Certificate.zero with EmailAddresses := emails }

/-- The certificate literal
`&x509.Certificate{Subject: pkix.Name{CommonName: commonName}}`. -/
def certWithCommonName (commonName : GoString) : Certificate :=
  { Certificate.zero with Subject := { Name.zero with CommonName := commonName } }

/-- The URL literal `&url.URL{Scheme: scheme, Host: host, Path: path}`. -/
def urlOf (scheme host path : GoString) : URL :=
  ⟨scheme, [], none, host, path, [], false, false, [], [], []⟩

/-- The certificate literal `&x509.Certificate{URIs: uris}`. -/
def certWithURIs (uris : List URL) : Certificate :=
  { Certificate.zero with URIs := uris }

/-- The definition `&DefinitionLMP[string]{&LocatorSanEmail{}, &MatcherSuffix{suffix},
&ParserSplit{sep}}`. -/
def emailSuffixSplit (suffix sep : GoString) : Definition :=
  DefinitionLMP.toDefinition
    ⟨LocatorSanEmail.toLocator ⟨⟩, MatcherSuffix.toMatcher ⟨suffix⟩, ParserSplit.toParser ⟨sep⟩⟩

/-- The definition `&DefinitionLMP[string]{&LocatorSanEmail{}, &MatcherSuffix{suffix},
&ParserNoOp{}}`. -/
def emailSuffixNoOp (suffix : GoString) : Definition :=
  DefinitionLMP.toDefinition
    ⟨LocatorSanEmail.toLocator ⟨⟩, MatcherSuffix.toMatcher ⟨suffix⟩, ParserNoOp.toParser ⟨⟩⟩

/-- The provider of the test "can parse multiple claims from multiple email san with
various parsing logic". -/
def twoSuffixProvider : ProviderBasic :=
  ⟨[emailSuffixSplit (lit "@ziti.dev") (lit "."), emailSuffixNoOp (lit "@other.dev")]⟩

/-- The definition `&DefinitionLMP[string]{&LocatorCommonName{}, &MatcherPrefix{p},
&ParserSplit{sep}}`, before it is used as a `Definition`. -/
def commonNamePrefixSplit (p sep : GoString) : DefinitionLMP GoString :=
  ⟨LocatorCommonName.toLocator ⟨⟩, MatcherPrefix.toMatcher ⟨p⟩, ParserSplit.toParser ⟨sep⟩⟩

/-- The definition `&DefinitionLMP[*url.URL]{&LocatorSanUri{}, &MatcherScheme{scheme},
&ParserNoOp{}}`, with `urlString` for the method `(*url.URL).String`. -/
def uriSchemeNoOp (urlString : URL → GoString) (scheme : GoString) : Definition :=
  DefinitionLMP.toDefinition
    ⟨LocatorSanUri.toLocator urlString ⟨⟩, MatcherScheme.toMatcher ⟨scheme⟩,
      ParserNoOp.toParser ⟨⟩⟩

/-- The definition `&DefinitionLMP[string]{&LocatorCommonName{}, &MatcherPrefix{p}, parser}`. -/
def commonNamePrefix (p : GoString) (parser : Parser) : Definition :=
  DefinitionLMP.toDefinition
    ⟨LocatorCommonName.toLocator ⟨⟩, MatcherPrefix.toMatcher ⟨p⟩, parser⟩

/-- The definition `&DefinitionLMP[string]{&LocatorCommonName{}, &MatcherAll[string]{}, parser}`. -/
def commonNameAll (parser : Parser) : Definition :=
  DefinitionLMP.toDefinition
    ⟨LocatorCommonName.toLocator ⟨⟩, MatcherAll.toMatcher ⟨⟩, parser⟩

/-- The string form of the URIs of the tests, which have a scheme, a host and a path that
starts with `/`, all of unreserved characters, and nothing else: the scheme, `://`, the
host, the path (`url.Parse("spiffe://mytrustdomain/myidentity1")` has the scheme `spiffe`,
the host `mytrustdomain`, the path `/myidentity1`, and its `String()` is the parsed text). -/
def schemeHostPathString (u : URL) : GoString :=
  u.Scheme ++ lit "://" ++ u.Host ++ u.Path

/-- The URIs of the test "can parse multiple claims from multiple URI SANs". -/
def threeTestURIs : List URL :=
  [urlOf (lit "spiffe") (lit "mytrustdomain") (lit "/myidentity1"),
   urlOf (lit "nomatch") (lit "not") (lit "/here/man"),
   urlOf (lit "spiffe") (lit "mytrustdomain") (lit "/myidentity2")]

/-! ## Appending in a loop -/

/-- A loop that appends `f x` for every `x` builds the concatenation of the `f x`. -/
theorem foldl_append_flatMap {α β : Type} (f : α → List β) (xs : List α) (acc : List β) :
    xs.foldl (fun result x => result ++ f x) acc = acc ++ xs.flatMap f := by
  induction xs generalizing acc with
  | nil => simp
  | cons x xs ih => simp [List.foldl_cons, ih, List.flatMap_cons, List.append_assoc]

/-- Wrapping every element in a one-element list and concatenating changes nothing. -/
theorem flatMap_singleton {α : Type} (l : List α) (f : α → List α) (hf : ∀ a, f a = [a]) :
    l.flatMap f = l := by
  induction l with
  | nil => rfl
  | cons a l ih => rw [List.flatMap_cons, ih, hf]; rfl

/-- A loop whose step appends `out x` for the accepted `x` and leaves the result alone
for the others keeps, in order, the outputs of the accepted elements. -/
theorem foldl_keep_filter {α β : Type} (step : List β → α → List β) (keep : α → Bool)
    (out : α → β) (hstep : ∀ r x, step r x = if keep x then r ++ [out x] else r)
    (xs : List α) (acc : List β) :
    xs.foldl step acc = acc ++ (xs.filter keep).map out := by
  induction xs generalizing acc with
  | nil => simp
  | cons x xs ih =>
    rw [List.foldl_cons, ih, hstep]
    cases h : keep x <;> simp [List.filter_cons, h]

/-! ## `strings` lemmas -/

/-- `strings.HasPrefix` decides whether `p` is a prefix of `s`. -/
theorem HasPrefix_iff (s p : GoString) : HasPrefix s p = true ↔ p <+: s := by
  unfold HasPrefix
  rw [List.prefix_iff_eq_take]
  constructor
  · intro h
    simp only [Bool.and_eq_true, decide_eq_true_eq, beq_iff_eq] at h
    exact h.2.symm
  · intro h
    simp only [Bool.and_eq_true, decide_eq_true_eq, beq_iff_eq]
    refine ⟨?_, h.symm⟩
    have := congrArg List.length h
    rw [List.length_take] at this
    omega

/-- `strings.HasSuffix` decides whether `x` is a suffix of `s`. -/
theorem HasSuffix_iff (s x : GoString) : HasSuffix s x = true ↔ x <:+ s := by
  unfold HasSuffix
  rw [List.suffix_iff_eq_drop]
  constructor
  · intro h
    simp only [Bool.and_eq_true, decide_eq_true_eq, beq_iff_eq] at h
    exact h.2.symm
  · intro h
    simp only [Bool.and_eq_true, decide_eq_true_eq, beq_iff_eq]
    refine ⟨?_, h.symm⟩
    have := congrArg List.length h
    rw [List.length_drop] at this
    omega

/-- An `Index` of `none` (Go: `-1`) means the substring occurs nowhere. -/
theorem Index_none (sep : GoString) (s : GoString) (h : Index s sep = none)
    (a r : GoString) : s ≠ a ++ sep ++ r := by
  induction s generalizing a with
  | nil =>
    intro hs
    unfold Index at h
    have hp : HasPrefix [] sep = true := by
      rw [HasPrefix_iff]
      have h1 : a ++ sep ++ r = [] := hs.symm
      simp only [List.append_eq_nil] at h1
      rw [h1.1.2]
    simp [hp] at h
  | cons c t ih =>
    intro hs
    unfold Index at h
    by_cases hp : HasPrefix (c :: t) sep = true
    · simp [hp] at h
    · simp only [hp, Bool.false_eq_true, if_false, Option.map_eq_none'] at h
      cases a with
      | nil =>
        apply hp
        rw [HasPrefix_iff, hs]
        exact ⟨r, by simp⟩
      | cons a0 a1 =>
        simp only [List.cons_append, List.cons.injEq] at hs
        exact ih h a1 hs.2

/-- An `Index` of `some m` is a real occurrence at offset `m`, inside `s`, and no
occurrence starts earlier. -/
theorem Index_some (sep : GoString) (s : GoString) (m : Nat) (h : Index s sep = some m) :
    s = s.take m ++ sep ++ s.drop (m + sep.length) ∧ m + sep.length ≤ s.length ∧
    ∀ a r : GoString, s = a ++ sep ++ r → m ≤ a.length := by
  induction s generalizing m with
  | nil =>
    unfold Index at h
    by_cases hp : HasPrefix [] sep = true
    · simp only [hp, if_true, Option.some.injEq] at h
      subst h
      have h1 := (HasPrefix_iff [] sep).mp hp
      have h2 : sep = [] := List.prefix_nil.mp h1
      subst h2
      simp
    · simp [hp] at h
  | cons c t ih =>
    unfold Index at h
    by_cases hp : HasPrefix (c :: t) sep = true
    · simp only [hp, if_true, Option.some.injEq] at h
      subst h
      have h1 := (HasPrefix_iff (c :: t) sep).mp hp
      have h2 := List.prefix_iff_eq_take.mp h1
      refine ⟨?_, ?_, fun _ _ _ => Nat.zero_le _⟩
      · simp only [List.take_zero, List.nil_append, Nat.zero_add]
        conv_rhs => lhs; rw [h2]
        exact (List.take_append_drop _ _).symm
      · have := h1.length_le
        omega
    · simp only [hp, Bool.false_eq_true, if_false, Option.map_eq_some'] at h
      obtain ⟨m1, hm1, rfl⟩ := h
      obtain ⟨e1, e2, e3⟩ := ih m1 hm1
      refine ⟨?_, ?_, ?_⟩
      · have harith : m1 + 1 + sep.length = (m1 + sep.length) + 1 := by omega
        rw [harith, List.take_succ_cons, List.drop_succ_cons, List.cons_append, List.cons_append,
          ← e1]
      · simp only [List.length_cons]
        omega
      · intro a r hs
        cases a with
        | nil =>
          exfalso
          apply hp
          rw [HasPrefix_iff, hs]
          exact ⟨r, by simp⟩
        | cons a0 a1 =>
          simp only [List.cons_append, List.cons.injEq] at hs
          have := e3 a1 r hs.2
          simp only [List.length_cons]
          omega

/-- The leftmost occurrence of the substring is what `Index` finds. -/
theorem Index_leftmost (sep s a rest : GoString) (hs : s = a ++ sep ++ rest)
    (hleft : ∀ a2 r2 : GoString, s = a2 ++ sep ++ r2 → a.length ≤ a2.length) :
    Index s sep = some a.length := by
  cases h : Index s sep with
  | none => exact absurd hs (Index_none sep s h a rest)
  | some m =>
    obtain ⟨e1, _, e3⟩ := Index_some sep s m h
    have h1 := e3 a rest hs
    have h2 := hleft _ _ e1
    rw [List.length_take] at h2
    have : m = a.length := by omega
    rw [this]

/-- The loop of `strings.Count` with more fuel than the length of its input returns
the count of a fresh run plus the count it was started with. -/
theorem Count_loop_fuel (sep : GoString) (hsep : sep ≠ []) (f : Nat) :
    ∀ (s : GoString) (n : Nat), s.length < f →
      Count.loop sep f s n = Count.loop sep (s.length + 1) s 0 + n := by
  induction f using Nat.strong_induction_on with
  | _ f ih =>
    intro s n hf
    cases f with
    | zero => omega
    | succ k =>
      rw [Count.loop, Count.loop]
      cases h : Index s sep with
      | none => simp
      | some i =>
        simp only
        have hlen : i + sep.length ≤ s.length := (Index_some sep s i h).2.1
        have hpos : 0 < sep.length := List.length_pos.mpr hsep
        have hdrop : (s.drop (i + sep.length)).length < s.length := by
          rw [List.length_drop]
          omega
        rw [ih k (Nat.lt_succ_self k) _ (n + 1) (by omega),
          ih s.length (by omega) _ (0 + 1) hdrop]
        omega

/-- No occurrence: `strings.Count` is zero. -/
theorem Count_of_Index_none (sep : GoString) (hsep : sep ≠ []) (s : GoString)
    (h : Index s sep = none) : Count s sep = 0 := by
  unfold Count
  match sep, hsep, h with
  | [c], _, h =>
    simp only
    rw [List.count_eq_zero]
    intro hc
    obtain ⟨a, r, hs⟩ := List.append_of_mem hc
    exact Index_none [c] s h a r (by simpa using hs)
  | c :: d :: t, _, h =>
    simp only
    rw [Count.loop, h]

/-- An occurrence at `m`: `strings.Count` is one more than the count after it. -/
theorem Count_of_Index_some (sep : GoString) (hsep : sep ≠ []) (s : GoString) (m : Nat)
    (h : Index s sep = some m) :
    Count s sep = Count (s.drop (m + sep.length)) sep + 1 := by
  have hspec := Index_some sep s m h
  unfold Count
  match sep, hsep, h, hspec with
  | [c], _, h, hspec =>
    simp only [List.length_singleton]
    obtain ⟨e1, _, e3⟩ := hspec
    simp only [List.length_singleton] at e1
    have hnot : c ∉ s.take m := by
      intro hc
      obtain ⟨a, r, ha⟩ := List.append_of_mem hc
      have hs : s = a ++ [c] ++ (r ++ [c] ++ s.drop (m + 1)) := by
        conv_lhs => rw [e1, ha]
        simp
      have h1 := e3 a _ hs
      have h2 : (s.take m).length = a.length + (r.length + 1) := by
        rw [ha]
        simp
      rw [List.length_take] at h2
      omega
    conv_lhs => rw [e1]
    rw [List.count_append, List.count_append, List.count_eq_zero.mpr hnot]
    simp
    omega
  | c :: d :: t, hne, h, hspec =>
    simp only
    rw [Count.loop, h]
    simp only
    have hlen := hspec.2.1
    have hdrop : (s.drop (m + (c :: d :: t).length)).length < s.length := by
      rw [List.length_drop]
      simp only [List.length_cons] at hlen ⊢
      omega
    rw [Count_loop_fuel (c :: d :: t) hne s.length _ (0 + 1) hdrop]

/-- For a non-empty substring `strings.Count` is at most the length of the input. -/
theorem Count_le_length (sep : GoString) (hsep : sep ≠ []) (k : Nat) :
    ∀ s : GoString, s.length ≤ k → Count s sep ≤ s.length := by
  induction k with
  | zero =>
    intro s hk
    cases h : Index s sep with
    | none => rw [Count_of_Index_none sep hsep s h]; exact Nat.zero_le _
    | some m =>
      have := (Index_some sep s m h).2.1
      have hpos : 0 < sep.length := List.length_pos.mpr hsep
      omega
  | succ k ih =>
    intro s hk
    cases h : Index s sep with
    | none => rw [Count_of_Index_none sep hsep s h]; exact Nat.zero_le _
    | some m =>
      have hlen := (Index_some sep s m h).2.1
      have hpos : 0 < sep.length := List.length_pos.mpr hsep
      have hd : (s.drop (m + sep.length)).length = s.length - (m + sep.length) :=
        List.length_drop _ _
      have := ih (s.drop (m + sep.length)) (by omega)
      rw [Count_of_Index_some sep hsep s m h]
      omega

/-- For a non-empty separator `strings.Split` runs the loop of `genSplit` for
`Count(s, sep)` iterations. -/
theorem Split_eq_loop (sep : GoString) (hsep : sep ≠ []) (s : GoString) :
    Split s sep = genSplit.loop sep 0 (Count s sep) s := by
  have hle := Count_le_length sep hsep s.length s (Nat.le_refl _)
  unfold Split genSplit
  simp only [hsep, if_false]
  have h1 : ¬ ((-1 : Int) = 0) := by decide
  have h2 : (-1 : Int) < 0 := by decide
  simp only [h1, h2, if_true, if_false]
  have h3 : ¬ (Count s sep + 1 > s.length + 1) := by omega
  simp only [h3, if_false, Nat.add_sub_cancel]

/-- No occurrence of the separator: `strings.Split` returns the input alone. -/
theorem Split_of_Index_none (sep : GoString) (hsep : sep ≠ []) (s : GoString)
    (h : Index s sep = none) : Split s sep = [s] := by
  rw [Split_eq_loop sep hsep, Count_of_Index_none sep hsep s h, genSplit.loop]

/-- An occurrence of the separator at `m`: `strings.Split` returns the bytes before it
followed by the split of the bytes after it. -/
theorem Split_of_Index_some (sep : GoString) (hsep : sep ≠ []) (s : GoString) (m : Nat)
    (h : Index s sep = some m) :
    Split s sep = s.take m :: Split (s.drop (m + sep.length)) sep := by
  rw [Split_eq_loop sep hsep, Split_eq_loop sep hsep, Count_of_Index_some sep hsep s m h,
    genSplit.loop, h]
  simp

/-- Go's `strings.Join` on two or more elements: the first, the separator, the join
of the rest. -/
theorem Join_cons_cons (sep x y : GoString) (ys : List GoString) :
    Join (x :: y :: ys) sep = x ++ sep ++ Join (y :: ys) sep := by
  have hfold : ∀ (zs : List GoString) (b : GoString),
      zs.foldl (fun b s => b ++ sep ++ s) b = b ++ zs.flatMap (fun s => sep ++ s) := by
    intro zs
    induction zs with
    | nil => simp
    | cons z zs ih =>
      intro b
      rw [List.foldl_cons, ih, List.flatMap_cons]
      simp only [List.append_assoc]
  cases ys with
  | nil => simp [Join]
  | cons z zs =>
    unfold Join
    simp only
    rw [hfold, hfold, List.flatMap_cons]
    simp only [List.append_assoc]

/-- For a non-empty separator `strings.Split` returns `Count(s, sep) + 1` segments. -/
theorem Split_length (sep : GoString) (hsep : sep ≠ []) (k : Nat) :
    ∀ s : GoString, s.length ≤ k → (Split s sep).length = Count s sep + 1 := by
  induction k with
  | zero =>
    intro s hk
    cases h : Index s sep with
    | none => rw [Split_of_Index_none sep hsep s h, Count_of_Index_none sep hsep s h]; rfl
    | some m =>
      have := (Index_some sep s m h).2.1
      have hpos : 0 < sep.length := List.length_pos.mpr hsep
      omega
  | succ k ih =>
    intro s hk
    cases h : Index s sep with
    | none => rw [Split_of_Index_none sep hsep s h, Count_of_Index_none sep hsep s h]; rfl
    | some m =>
      have hlen := (Index_some sep s m h).2.1
      have hpos : 0 < sep.length := List.length_pos.mpr hsep
      have hd : (s.drop (m + sep.length)).length = s.length - (m + sep.length) :=
        List.length_drop _ _
      rw [Split_of_Index_some sep hsep s m h, Count_of_Index_some sep hsep s m h,
        List.length_cons, ih (s.drop (m + sep.length)) (by omega)]

/-- For a non-empty separator the segments of `strings.Split` are at least one, join
back to the input, and none of them contains the separator. -/
theorem Split_join (sep : GoString) (hsep : sep ≠ []) (k : Nat) :
    ∀ s : GoString, s.length ≤ k →
      Split s sep ≠ [] ∧ Join (Split s sep) sep = s ∧ ∀ seg ∈ Split s sep, ¬ sep <:+: seg := by
  have hpos : 0 < sep.length := List.length_pos.mpr hsep
  have hnone : ∀ s : GoString, Index s sep = none →
      Split s sep ≠ [] ∧ Join (Split s sep) sep = s ∧ ∀ seg ∈ Split s sep, ¬ sep <:+: seg := by
    intro s h
    rw [Split_of_Index_none sep hsep s h]
    refine ⟨by simp, rfl, ?_⟩
    intro seg hseg
    rw [List.mem_singleton] at hseg
    subst hseg
    rintro ⟨a, r, har⟩
    exact Index_none sep seg h a r har.symm
  have hsome : ∀ (s : GoString) (m : Nat), Index s sep = some m →
      (Split (s.drop (m + sep.length)) sep ≠ [] ∧
        Join (Split (s.drop (m + sep.length)) sep) sep = s.drop (m + sep.length) ∧
        ∀ seg ∈ Split (s.drop (m + sep.length)) sep, ¬ sep <:+: seg) →
      Split s sep ≠ [] ∧ Join (Split s sep) sep = s ∧ ∀ seg ∈ Split s sep, ¬ sep <:+: seg := by
    intro s m h ⟨i1, i2, i3⟩
    obtain ⟨e1, e2, e3⟩ := Index_some sep s m h
    rw [Split_of_Index_some sep hsep s m h]
    refine ⟨by simp, ?_, ?_⟩
    · obtain ⟨y, ys, hy⟩ := List.exists_cons_of_ne_nil i1
      rw [hy, Join_cons_cons, ← hy, i2]
      exact e1.symm
    · intro seg hseg
      rcases List.mem_cons.mp hseg with hseg | hseg
      · subst hseg
        rintro ⟨a, r, har⟩
        have hs : s = a ++ sep ++ (r ++ sep ++ s.drop (m + sep.length)) := by
          conv_lhs => rw [e1, ← har]
          simp
        have h1 := e3 a _ hs
        have h2 := congrArg List.length har
        simp only [List.length_append, List.length_take] at h2
        omega
      · exact i3 seg hseg
  induction k with
  | zero =>
    intro s hk
    cases h : Index s sep with
    | none => exact hnone s h
    | some m =>
      have := (Index_some sep s m h).2.1
      omega
  | succ k ih =>
    intro s hk
    cases h : Index s sep with
    | none => exact hnone s h
    | some m =>
      have hlen := (Index_some sep s m h).2.1
      have hd : (s.drop (m + sep.length)).length = s.length - (m + sep.length) :=
        List.length_drop _ _
      exact hsome s m h (ih (s.drop (m + sep.length)) (by omega))

/-! ## Splitting what was joined -/

/-- A string without the separator is split into itself alone. -/
theorem Split_no_occurrence (sep : GoString) (hsep : sep ≠ []) (s : GoString)
    (hno : ¬ sep <:+: s) : Split s sep = [s] := by
  cases h : Index s sep with
  | none => exact Split_of_Index_none sep hsep s h
  | some m => exact absurd ⟨_, _, (Index_some sep s m h).1.symm⟩ hno

/-- At the leftmost occurrence of the separator the split is what precedes it followed
by the split of what follows it. -/
theorem Split_leftmost (sep : GoString) (hsep : sep ≠ []) (s a rest : GoString)
    (hs : s = a ++ sep ++ rest)
    (hleft : ∀ a2 r2 : GoString, s = a2 ++ sep ++ r2 → a.length ≤ a2.length) :
    Split s sep = a :: Split rest sep := by
  have h := Index_leftmost sep s a rest hs hleft
  rw [Split_of_Index_some sep hsep s a.length h]
  have ht : s.take a.length = a := by
    rw [hs, List.append_assoc, List.take_left]
  have hd : s.drop (a.length + sep.length) = rest := by
    rw [hs, ← List.length_append, List.drop_left]
  rw [ht, hd]

/-- For a one-byte separator, a string that does not contain it, followed by it, has
its only occurrence at the end. -/
theorem leftmost_of_single_byte (b : UInt8) (c : GoString) (hfree : ¬ [b] <:+: c)
    (a r : GoString) (h : c ++ [b] = a ++ [b] ++ r) : c.length ≤ a.length := by
  by_contra hlt
  have p1 : a ++ [b] <+: c ++ [b] := ⟨r, h.symm⟩
  have p2 : c <+: c ++ [b] := List.prefix_append _ _
  have p3 : a ++ [b] <+: c :=
    List.prefix_of_prefix_length_le p1 p2 (by simp only [List.length_append, List.length_singleton]; omega)
  obtain ⟨t, ht⟩ := p3
  exact hfree ⟨a, t, ht⟩

/-- Joining and splitting again gives back the segments, when the last segment does not
contain the separator and, in every other segment followed by the separator, the
separator occurs only at the end. -/
theorem Split_Join (sep : GoString) (hsep : sep ≠ []) :
    ∀ cs : List GoString, cs ≠ [] →
      (∀ c ∈ cs, ¬ sep <:+: c) →
      (∀ c ∈ cs.dropLast, ∀ a r : GoString, c ++ sep = a ++ sep ++ r → c.length ≤ a.length) →
      Split (Join cs sep) sep = cs := by
  intro cs
  induction cs with
  | nil => intro h; exact absurd rfl h
  | cons c rest ih =>
    intro _ hfree hleft
    cases rest with
    | nil => exact Split_no_occurrence sep hsep c (hfree c (List.mem_singleton.mpr rfl))
    | cons d ds =>
      have hl : ∀ a2 r2 : GoString, c ++ sep ++ Join (d :: ds) sep = a2 ++ sep ++ r2 →
          c.length ≤ a2.length := by
        intro a2 r2 h
        by_contra hlt
        have p1 : a2 ++ sep <+: c ++ sep ++ Join (d :: ds) sep := ⟨r2, h.symm⟩
        have p2 : c ++ sep <+: c ++ sep ++ Join (d :: ds) sep := List.prefix_append _ _
        have p3 : a2 ++ sep <+: c ++ sep :=
          List.prefix_of_prefix_length_le p1 p2 (by simp only [List.length_append]; omega)
        obtain ⟨t, ht⟩ := p3
        have hc : c ∈ (c :: d :: ds).dropLast := by simp [List.dropLast]
        exact hlt (hleft c hc a2 t ht.symm)
      rw [Join_cons_cons, Split_leftmost sep hsep _ c (Join (d :: ds) sep) rfl hl]
      have hrest : Split (Join (d :: ds) sep) sep = d :: ds := by
        apply ih (by simp)
        · intro x hx
          exact hfree x (List.mem_cons_of_mem c hx)
        · intro x hx
          apply hleft x
          simp only [List.dropLast_cons₂, List.mem_cons]
          exact Or.inr hx
      rw [hrest]

/-! ## `unicode/utf8` lemmas -/

/-- The entries of the table `first`: the ASCII entry for the bytes below `0x80`, and one
of the eight other entries for the rest. -/
theorem first_cases (c : UInt8) :
    (c.toNat < 0x80 ∧ first c = 0xF0) ∨
    (¬ c.toNat < 0x80 ∧
      (first c = 0xF1 ∨ first c = 0x02 ∨ first c = 0x13 ∨ first c = 0x03 ∨ first c = 0x23 ∨
        first c = 0x34 ∨ first c = 0x04 ∨ first c = 0x44)) := by
  unfold first
  simp only []
  split_ifs <;> simp [as, xx] <;> omega

/-- The sizes held in the low three bits of the entries of `first`. -/
theorem land_seven :
    (0x02 &&& 7 = 2) ∧ (0x13 &&& 7 = 3) ∧ (0x03 &&& 7 = 3) ∧ (0x23 &&& 7 = 3) ∧
    (0x34 &&& 7 = 4) ∧ (0x04 &&& 7 = 4) ∧ (0x44 &&& 7 = 4) := by
  decide

/-- The accept ranges selected by the high nibble of the entries of `first`. -/
theorem accept_seven :
    acceptRanges (0x02 >>> 4) = (0x80, 0xBF) ∧ acceptRanges (0x13 >>> 4) = (0xA0, 0xBF) ∧
    acceptRanges (0x03 >>> 4) = (0x80, 0xBF) ∧ acceptRanges (0x23 >>> 4) = (0x80, 0x9F) ∧
    acceptRanges (0x34 >>> 4) = (0x90, 0xBF) ∧ acceptRanges (0x04 >>> 4) = (0x80, 0xBF) ∧
    acceptRanges (0x44 >>> 4) = (0x80, 0x8F) := by
  decide

set_option maxHeartbeats 4000000 in
/-- The loop of `utf8.RuneCountInString` advances by the size `utf8.DecodeRuneInString`
reports. -/
theorem advance_eq_size (s : GoString) :
    RuneCountInString.advance s = DecodeRuneInStringSize s := by
  obtain ⟨e1, e2, e3, e4, e5, e6, e7⟩ := land_seven
  obtain ⟨a1, a2, a3, a4, a5, a6, a7⟩ := accept_seven
  cases s with
  | nil => rfl
  | cons c t =>
    rcases first_cases c with ⟨hc, h⟩ | ⟨hc, h | h | h | h | h | h | h | h⟩ <;>
      simp [RuneCountInString.advance, DecodeRuneInStringSize, h, hc, RuneSelf, as, xx,
        locb, hicb, e1, e2, e3, e4, e5, e6, e7, a1, a2, a3, a4, a5, a6, a7]

set_option maxHeartbeats 4000000 in
/-- The size of the first UTF-8 sequence of a non-empty string is at least one byte and
at most the whole string. -/
theorem size_bounds (s : GoString) (hs : s ≠ []) :
    1 ≤ DecodeRuneInStringSize s ∧ DecodeRuneInStringSize s ≤ s.length := by
  obtain ⟨e1, e2, e3, e4, e5, e6, e7⟩ := land_seven
  obtain ⟨a1, a2, a3, a4, a5, a6, a7⟩ := accept_seven
  cases s with
  | nil => exact absurd rfl hs
  | cons c t =>
    generalize hk : DecodeRuneInStringSize (c :: t) = k
    rcases first_cases c with ⟨_, h⟩ | ⟨_, h | h | h | h | h | h | h | h⟩ <;>
      simp only [DecodeRuneInStringSize, h, as, xx, locb, hicb,
        e1, e2, e3, e4, e5, e6, e7, a1, a2, a3, a4, a5, a6, a7, List.length_cons,
        ge_iff_le, Nat.reduceLeDiff, ↓reduceIte] at hk <;>
      (try split_ifs at hk) <;>
      simp only [List.length_cons] <;>
      omega

/-- Reading a byte of a long enough prefix is reading the byte of the string. -/
theorem getD_take (l : GoString) (i k : Nat) (d : UInt8) (h : i < k) :
    (l.take k).getD i d = l.getD i d := by
  simp [List.getD_eq_getElem?_getD, List.getElem?_take, h]

set_option maxHeartbeats 8000000 in
/-- The first UTF-8 sequence of a string, taken alone, is decoded whole. -/
theorem size_take (s : GoString) :
    DecodeRuneInStringSize (s.take (DecodeRuneInStringSize s)) = DecodeRuneInStringSize s := by
  obtain ⟨e1, e2, e3, e4, e5, e6, e7⟩ := land_seven
  obtain ⟨a1, a2, a3, a4, a5, a6, a7⟩ := accept_seven
  cases s with
  | nil => rfl
  | cons c t =>
    have g : ∀ i n, i < n + 1 → (c :: List.take n t).getD i 0 = (c :: t).getD i 0 :=
      fun i n hi => getD_take (c :: t) i (n + 1) 0 hi
    generalize hk : DecodeRuneInStringSize (c :: t) = k
    rcases first_cases c with ⟨_, h⟩ | ⟨_, h | h | h | h | h | h | h | h⟩ <;>
      simp only [DecodeRuneInStringSize, h, as, xx, locb, hicb,
        e1, e2, e3, e4, e5, e6, e7, a1, a2, a3, a4, a5, a6, a7, List.length_cons,
        ge_iff_le, Nat.reduceLeDiff, ↓reduceIte] at hk <;>
      (try split_ifs at hk) <;> subst hk <;>
      rw [show ∀ n, List.take (n + 1) (c :: t) = c :: List.take n t from fun _ => rfl] <;>
      simp (disch := omega) only [DecodeRuneInStringSize, h, as, xx, locb, hicb,
        e1, e2, e3, e4, e5, e6, e7, a1, a2, a3, a4, a5, a6, a7,
        List.length_cons, List.length_take, g, ge_iff_le, Nat.reduceLeDiff, ↓reduceIte] <;>
      (try split_ifs) <;>
      first | rfl | contradiction | omega

/-- The loop of `utf8.RuneCountInString` with at least as much fuel as the length of its
input returns the count of a fresh run plus the count it was started with. -/
theorem RuneCount_loop_fuel (f : Nat) :
    ∀ (s : GoString) (n : Nat), s.length ≤ f →
      RuneCountInString.loop f s n = RuneCountInString.loop s.length s 0 + n := by
  induction f using Nat.strong_induction_on with
  | _ f ih =>
    intro s n hf
    cases s with
    | nil =>
      cases f with
      | zero => simp [RuneCountInString.loop]
      | succ k => simp [RuneCountInString.loop]
    | cons c t =>
      cases f with
      | zero => simp at hf
      | succ k =>
        have hb := size_bounds (c :: t) (List.cons_ne_nil c t)
        have hd : ((c :: t).drop (RuneCountInString.advance (c :: t))).length ≤ t.length := by
          rw [advance_eq_size, List.length_drop, List.length_cons]
          omega
        simp only [List.length_cons] at hf
        rw [List.length_cons, RuneCountInString.loop, RuneCountInString.loop]
        simp only [List.length_cons, Nat.add_one_ne_zero, if_false]
        rw [ih k (Nat.lt_succ_self k) _ (n + 1) (by omega),
          ih t.length (by omega) _ (0 + 1) hd]
        omega

/-- The empty string has no rune. -/
theorem RuneCountInString_nil : RuneCountInString [] = 0 := by
  rfl

/-- A non-empty string has one rune more than what follows its first UTF-8 sequence. -/
theorem RuneCountInString_cons (s : GoString) (hs : s ≠ []) :
    RuneCountInString s = RuneCountInString (s.drop (DecodeRuneInStringSize s)) + 1 := by
  cases s with
  | nil => exact absurd rfl hs
  | cons c t =>
    have hb := size_bounds (c :: t) hs
    have hd : ((c :: t).drop (RuneCountInString.advance (c :: t))).length ≤ t.length := by
      rw [advance_eq_size, List.length_drop, List.length_cons]
      omega
    unfold RuneCountInString
    rw [List.length_cons, RuneCountInString.loop]
    simp only [List.length_cons, Nat.add_one_ne_zero, if_false]
    rw [RuneCount_loop_fuel t.length _ (0 + 1) hd, advance_eq_size]

/-- A string that is one UTF-8 sequence has one rune. -/
theorem RuneCountInString_of_size (s : GoString) (hs : s ≠ [])
    (h : DecodeRuneInStringSize s = s.length) : RuneCountInString s = 1 := by
  rw [RuneCountInString_cons s hs, h, List.drop_length, RuneCountInString_nil]

/-- With the empty separator the empty string is split into nothing. -/
theorem Split_empty_nil : Split [] [] = [] := by
  rfl

/-- With the empty separator a non-empty string is split into its first UTF-8 sequence
followed by the split of the rest. -/
theorem Split_empty_cons (s : GoString) (hs : s ≠ []) :
    Split s []
      = s.take (DecodeRuneInStringSize s) :: Split (s.drop (DecodeRuneInStringSize s)) [] := by
  have hb := size_bounds s hs
  have hexp : ∀ u : GoString, Split u [] =
      if RuneCountInString u > 0 then explode.loop (RuneCountInString u - 1) u else [] := by
    intro u
    simp [Split, genSplit, explode]
  rw [hexp s, hexp, RuneCountInString_cons s hs]
  simp only [gt_iff_lt, Nat.zero_lt_succ, if_true, Nat.add_sub_cancel]
  by_cases hr : s.drop (DecodeRuneInStringSize s) = []
  · rw [hr, RuneCountInString_nil]
    simp only [Nat.lt_irrefl, if_false, explode.loop]
    have hlen := congrArg List.length hr
    rw [List.length_drop, List.length_nil] at hlen
    rw [List.take_of_length_le (by omega)]
  · rw [RuneCountInString_cons _ hr]
    simp only [Nat.zero_lt_succ, if_true, Nat.add_sub_cancel]
    rw [explode.loop]

/-- With the empty separator `strings.Split` returns the UTF-8 sequences of the string:
as many segments as `utf8.RuneCountInString` counts, each of one rune, and together the
string. -/
theorem Split_empty_spec (k : Nat) :
    ∀ s : GoString, s.length ≤ k →
      (Split s []).length = RuneCountInString s ∧
      (∀ seg ∈ Split s [], RuneCountInString seg = 1) ∧
      (Split s []).flatten = s := by
  induction k with
  | zero =>
    intro s hk
    have hs : s = [] := List.length_eq_zero.mp (Nat.le_zero.mp hk)
    subst hs
    exact ⟨rfl, by simp [Split_empty_nil], rfl⟩
  | succ k ih =>
    intro s hk
    by_cases hs : s = []
    · subst hs
      exact ⟨rfl, by simp [Split_empty_nil], rfl⟩
    · have hb := size_bounds s hs
      have hd : (s.drop (DecodeRuneInStringSize s)).length ≤ k := by
        rw [List.length_drop]
        omega
      obtain ⟨i1, i2, i3⟩ := ih _ hd
      rw [Split_empty_cons s hs]
      refine ⟨?_, ?_, ?_⟩
      · rw [List.length_cons, i1, RuneCountInString_cons s hs]
      · intro seg hseg
        rcases List.mem_cons.mp hseg with hseg | hseg
        · subst hseg
          have hne : s.take (DecodeRuneInStringSize s) ≠ [] := by
            intro h0
            have := congrArg List.length h0
            rw [List.length_take, List.length_nil] at this
            omega
          apply RuneCountInString_of_size _ hne
          rw [size_take, List.length_take]
          omega
        · exact i2 seg hseg
      · rw [List.flatten_cons, i3, List.take_append_drop]

/-- With the empty separator a string of ASCII bytes is split into its bytes. -/
theorem Split_empty_ascii (s : GoString) (h : ∀ b ∈ s, b.toNat < 0x80) :
    Split s [] = s.map (fun b => [b]) := by
  induction s with
  | nil => rfl
  | cons c t ih =>
    have hsize : DecodeRuneInStringSize (c :: t) = 1 := by
      rcases first_cases c with ⟨_, hf⟩ | ⟨hc, _⟩
      · simp [DecodeRuneInStringSize, hf, as]
      · exact absurd (h c (List.mem_cons_self c t)) hc
    rw [Split_empty_cons _ (List.cons_ne_nil c t), hsize]
    simp only [List.take_succ_cons, List.take_zero, List.drop_succ_cons, List.drop_zero,
      List.map_cons]
    rw [ih (fun b hb => h b (List.mem_cons_of_mem c hb))]

/-! ## Segments are substrings -/

/-- The split of the empty string on a non-empty separator is the one empty segment. -/
theorem Split_nil (sep : GoString) (hsep : sep ≠ []) : Split [] sep = [[]] := by
  apply Split_of_Index_none sep hsep
  cases h : Index [] sep with
  | none => rfl
  | some m =>
    have := (Index_some sep [] m h).2.1
    have hpos : 0 < sep.length := List.length_pos.mpr hsep
    simp only [List.length_nil] at this
    omega

/-- Every segment the loop of `genSplit` writes is a contiguous part of its input. -/
theorem genSplit_loop_infix (sep : GoString) (k : Nat) :
    ∀ s : GoString, ∀ seg ∈ genSplit.loop sep 0 k s, seg <:+: s := by
  induction k with
  | zero =>
    intro s seg hseg
    rw [genSplit.loop, List.mem_singleton] at hseg
    subst hseg
    exact List.infix_refl _
  | succ k ih =>
    intro s seg hseg
    rw [genSplit.loop] at hseg
    cases h : Index s sep with
    | none =>
      rw [h, List.mem_singleton] at hseg
      subst hseg
      exact List.infix_refl _
    | some m =>
      rw [h] at hseg
      rcases List.mem_cons.mp hseg with hseg | hseg
      · rw [hseg]
        exact (List.take_prefix _ _).isInfix
      · exact (ih _ seg hseg).trans (List.drop_suffix _ _).isInfix

/-- Every segment the loop of `explode` writes is a contiguous part of its input. -/
theorem explode_loop_infix (k : Nat) :
    ∀ s : GoString, ∀ seg ∈ explode.loop k s, seg <:+: s := by
  induction k with
  | zero =>
    intro s seg hseg
    rw [explode.loop, List.mem_singleton] at hseg
    subst hseg
    exact List.infix_refl _
  | succ k ih =>
    intro s seg hseg
    rw [explode.loop] at hseg
    rcases List.mem_cons.mp hseg with hseg | hseg
    · rw [hseg]
      exact (List.take_prefix _ _).isInfix
    · exact (ih _ seg hseg).trans (List.drop_suffix _ _).isInfix

/-- Every segment of `strings.Split` is a contiguous part of the input, for every
separator, the empty one included. -/
theorem Split_infix (s sep : GoString) : ∀ seg ∈ Split s sep, seg <:+: s := by
  intro seg hseg
  by_cases hsep : sep = []
  · subst hsep
    have hexp : Split s [] =
        if RuneCountInString s > 0 then explode.loop (RuneCountInString s - 1) s else [] := by
      simp [Split, genSplit, explode]
    rw [hexp] at hseg
    by_cases hpos : RuneCountInString s > 0
    · rw [if_pos hpos] at hseg
      exact explode_loop_infix _ s seg hseg
    · rw [if_neg hpos] at hseg
      exact absurd hseg (List.not_mem_nil seg)
  · unfold Split genSplit at hseg
    have h1 : ¬ ((-1 : Int) = 0) := by decide
    simp only [h1, hsep, if_false] at hseg
    exact genSplit_loop_infix sep _ s seg hseg

/-! ## The pipeline, stage by stage -/

/-- A provider with one definition returns that definition's claims. -/
theorem ProviderBasic_Claims_single (d : Definition) (cert : Certificate) :
    ProviderBasic.Claims ⟨[d]⟩ cert = d.Claims cert := by
  simp [ProviderBasic.Claims]

/-- The loop of `DefinitionLMP.Claims` is the flat-map of the parser over the located
strings. -/
theorem DefinitionLMP_Claims_eq {M : Type} (d : DefinitionLMP M) (cert : Certificate) :
    d.Claims cert = (d.Locator.Locate cert d.Matcher).flatMap d.Parser.Parse := by
  unfold DefinitionLMP.Claims
  rw [foldl_append_flatMap, List.nil_append]

/-- The loop of `LocatorSanEmail.Locate` keeps the matcher's output for the accepted
addresses. -/
theorem LocatorSanEmail_Locate_eq (l : LocatorSanEmail) (cert : Certificate)
    (M : Matcher GoString) :
    l.Locate cert M
      = (cert.EmailAddresses.filter (fun e => (M.Match e).2)).map (fun e => (M.Match e).1) := by
  unfold LocatorSanEmail.Locate
  rw [foldl_keep_filter _ (fun e => (M.Match e).2) (fun e => (M.Match e).1), List.nil_append]
  intro r e
  rcases h : M.Match e with ⟨v, b⟩
  cases b <;> simp

/-- The loop of `LocatorSanUri.Locate` keeps the string form of the matcher's output for
the accepted URIs. -/
theorem LocatorSanUri_Locate_eq (urlString : URL → GoString) (l : LocatorSanUri)
    (cert : Certificate) (M : Matcher URL) :
    l.Locate urlString cert M
      = (cert.URIs.filter (fun u => (M.Match u).2)).map (fun u => urlString (M.Match u).1) := by
  unfold LocatorSanUri.Locate
  rw [foldl_keep_filter _ (fun u => (M.Match u).2) (fun u => urlString (M.Match u).1),
    List.nil_append]
  intro r u
  rcases h : M.Match u with ⟨v, b⟩
  cases b <;> simp

/-- `LocatorCommonName.Locate` returns the matcher's output when the matcher accepts the
common name and nothing otherwise. -/
theorem LocatorCommonName_Locate_eq (l : LocatorCommonName) (cert : Certificate)
    (M : Matcher GoString) :
    l.Locate cert M
      = if (M.Match cert.Subject.CommonName).2 then [(M.Match cert.Subject.CommonName).1]
        else [] := by
  unfold LocatorCommonName.Locate
  rcases h : M.Match cert.Subject.CommonName with ⟨v, b⟩
  cases b <;> simp

/-- The claims of a common-name definition: the parse of the matcher's output when the
matcher accepts the common name, nothing otherwise. -/
theorem commonName_Claims_eq (M : Matcher GoString) (P : Parser) (cert : Certificate) :
    ProviderBasic.Claims
        ⟨[DefinitionLMP.toDefinition ⟨LocatorCommonName.toLocator ⟨⟩, M, P⟩]⟩ cert
      = if (M.Match cert.Subject.CommonName).2 then P.Parse (M.Match cert.Subject.CommonName).1
        else [] := by
  rw [ProviderBasic_Claims_single]
  simp only [DefinitionLMP.toDefinition, LocatorCommonName.toLocator]
  rw [DefinitionLMP_Claims_eq]
  simp only []
  rw [LocatorCommonName_Locate_eq]
  split <;> simp

/-- The claims of the definition `{LocatorSanEmail, MatcherSuffix{x}, ParserSplit{sep}}`:
for the addresses that end with `x`, in the order of the field, the split of the address
without its last `len(x)` bytes. -/
theorem emailSuffixSplit_Claims_eq (x sep : GoString) (cert : Certificate) :
    (emailSuffixSplit x sep).Claims cert
      = (cert.EmailAddresses.filter (fun e => decide (x <:+ e))).flatMap
          (fun e => ParserSplit.Parse ⟨sep⟩ (e.take (e.length - x.length))) := by
  simp only [emailSuffixSplit, DefinitionLMP.toDefinition, LocatorSanEmail.toLocator]
  rw [DefinitionLMP_Claims_eq]
  simp only []
  rw [LocatorSanEmail_Locate_eq]
  simp only [MatcherSuffix.toMatcher, MatcherSuffix.Match, ParserSplit.toParser]
  have hfilter : cert.EmailAddresses.filter (fun e => HasSuffix e x)
      = cert.EmailAddresses.filter (fun e => decide (x <:+ e)) := by
    apply List.filter_congr
    intro e _
    rw [Bool.eq_iff_iff, HasSuffix_iff]
    simp
  rw [hfilter]
  induction cert.EmailAddresses with
  | nil => rfl
  | cons e es ih =>
    by_cases he : x <:+ e
    · have hs : HasSuffix e x = true := (HasSuffix_iff e x).mpr he
      have ht : TrimSuffix e x = e.take (e.length - x.length) := by
        simp [TrimSuffix, hs]
      simp only [List.filter_cons, he, decide_True, if_true, List.map_cons, List.flatMap_cons,
        ht, ih]
    · simp only [List.filter_cons, he, decide_False, Bool.false_eq_true, if_false, ih]

/-! ## The claims -/

/-- C1: `ProviderBasic.Claims` returns the outputs of its definitions concatenated in
definition order, `D1.Claims(cert) ++ ... ++ Dn.Claims(cert)`. On the emails
`hello@nomatch.com`, `claim1.claim2@ziti.dev`, `claim3.should.not.be.parsed@other.dev`
the definitions (suffix `@ziti.dev`, split on `.`) and (suffix `@other.dev`, no-op) give
`claim1`, `claim2`, `claim3.should.not.be.parsed`; with the two matching addresses in
the opposite order in the field the claims still come in definition order. -/
theorem ProviderBasic_Claims_concat :
    (∀ (c : ProviderBasic) (cert : Certificate),
      c.Claims cert = (c.Definitions.map (fun d => d.Claims cert)).flatten) ∧
    twoSuffixProvider.Claims
        (certWithEmails [lit "hello@nomatch.com", lit "claim1.claim2@ziti.dev",
          lit "claim3.should.not.be.parsed@other.dev"])
      = [lit "claim1", lit "claim2", lit "claim3.should.not.be.parsed"] ∧
    twoSuffixProvider.Claims
        (certWithEmails [lit "claim3.should.not.be.parsed@other.dev", lit "hello@nomatch.com",
          lit "claim1.claim2@ziti.dev"])
      = [lit "claim1", lit "claim2", lit "claim3.should.not.be.parsed"] := by
  refine ⟨?_, by decide, by decide⟩
  intro c cert
  unfold ProviderBasic.Claims
  rw [foldl_append_flatMap, List.nil_append, List.flatMap_def]

/-- C2: `DefinitionLMP.Claims` is the flat-map of `Parse` over the strings `Locate`
returns, in their order, and is empty when `Locate` returns no string. -/
theorem DefinitionLMP_Claims_flatMap {M : Type} (d : DefinitionLMP M) (cert : Certificate) :
    d.Claims cert = (d.Locator.Locate cert d.Matcher).flatMap d.Parser.Parse ∧
    (d.Locator.Locate cert d.Matcher = [] → d.Claims cert = []) := by
  have h : d.Claims cert = (d.Locator.Locate cert d.Matcher).flatMap d.Parser.Parse := by
    unfold DefinitionLMP.Claims
    rw [foldl_append_flatMap, List.nil_append]
  refine ⟨h, fun h0 => ?_⟩
  rw [h, h0]
  rfl

/-- C2 at the common name `IGOBOOM:claim1` with the prefix `SENTINEL:`: nothing is
located and there is no claim. -/
theorem DefinitionLMP_Claims_flatMap_witness :
    (commonNamePrefixSplit (lit "SENTINEL:") (lit ".")).Locator.Locate
        (certWithCommonName (lit "IGOBOOM:claim1"))
        (commonNamePrefixSplit (lit "SENTINEL:") (lit ".")).Matcher = [] ∧
    (commonNamePrefixSplit (lit "SENTINEL:") (lit ".")).Claims
        (certWithCommonName (lit "IGOBOOM:claim1")) = [] :=
  ⟨by decide,
   (DefinitionLMP_Claims_flatMap (commonNamePrefixSplit (lit "SENTINEL:") (lit "."))
      (certWithCommonName (lit "IGOBOOM:claim1"))).2 (by decide)⟩

/-- C3: `MatcherPrefix{p}.Match(s)` reports a match exactly when `s` starts with `p`;
on a match the returned string `r` satisfies `p ++ r = s`, otherwise it is `s`. -/
theorem MatcherPrefix_Match_spec (s p : GoString) :
    ((MatcherPrefix.Match ⟨p⟩ s).2 = true ↔ p <+: s) ∧
    ((MatcherPrefix.Match ⟨p⟩ s).2 = true → p ++ (MatcherPrefix.Match ⟨p⟩ s).1 = s) ∧
    ((MatcherPrefix.Match ⟨p⟩ s).2 = false → (MatcherPrefix.Match ⟨p⟩ s).1 = s) := by
  simp only [MatcherPrefix.Match, TrimPrefix]
  refine ⟨HasPrefix_iff s p, fun h => ?_, fun h => ?_⟩
  · rw [if_pos h]
    have hp := (List.prefix_iff_eq_take.mp ((HasPrefix_iff s p).mp h))
    conv_lhs => lhs; rw [hp]
    exact List.take_append_drop _ _
  · simp [h]

/-- C3 at `s = "SENTINEL:claim1"`, `p = "SENTINEL:"`. -/
theorem MatcherPrefix_Match_spec_witness :
    (MatcherPrefix.Match ⟨lit "SENTINEL:"⟩ (lit "SENTINEL:claim1")).2 = true ∧
    lit "SENTINEL:" ++ (MatcherPrefix.Match ⟨lit "SENTINEL:"⟩ (lit "SENTINEL:claim1")).1
      = lit "SENTINEL:claim1" :=
  ⟨by decide,
   (MatcherPrefix_Match_spec (lit "SENTINEL:claim1") (lit "SENTINEL:")).2.1 (by decide)⟩

/-- C4: `MatcherSuffix{x}.Match(s)` reports a match exactly when `s` ends with `x`;
on a match the returned string `r` satisfies `r ++ x = s`, otherwise it is `s`. -/
theorem MatcherSuffix_Match_spec (s x : GoString) :
    ((MatcherSuffix.Match ⟨x⟩ s).2 = true ↔ x <:+ s) ∧
    ((MatcherSuffix.Match ⟨x⟩ s).2 = true → (MatcherSuffix.Match ⟨x⟩ s).1 ++ x = s) ∧
    ((MatcherSuffix.Match ⟨x⟩ s).2 = false → (MatcherSuffix.Match ⟨x⟩ s).1 = s) := by
  simp only [MatcherSuffix.Match, TrimSuffix]
  refine ⟨HasSuffix_iff s x, fun h => ?_, fun h => ?_⟩
  · rw [if_pos h]
    have hx := (List.suffix_iff_eq_drop.mp ((HasSuffix_iff s x).mp h))
    conv_lhs => rhs; rw [hx]
    exact List.take_append_drop _ _
  · simp [h]

/-- C4 at `s = "claim1.claim2@ziti.dev"`, `x = "@ziti.dev"`. -/
theorem MatcherSuffix_Match_spec_witness :
    (MatcherSuffix.Match ⟨lit "@ziti.dev"⟩ (lit "claim1.claim2@ziti.dev")).2 = true ∧
    (MatcherSuffix.Match ⟨lit "@ziti.dev"⟩ (lit "claim1.claim2@ziti.dev")).1 ++ lit "@ziti.dev"
      = lit "claim1.claim2@ziti.dev" :=
  ⟨by decide,
   (MatcherSuffix_Match_spec (lit "claim1.claim2@ziti.dev") (lit "@ziti.dev")).2.1 (by decide)⟩

/-- C5: `MatcherScheme{c}.Match(u)` returns `u` unchanged and reports a match exactly
when `u.Scheme` and `c` are the same byte string; the scheme `Spiffe` does not match
`c = "spiffe"`. -/
theorem MatcherScheme_Match_spec :
    (∀ (u : URL) (c : GoString),
      (MatcherScheme.Match ⟨c⟩ u).1 = u ∧
      ((MatcherScheme.Match ⟨c⟩ u).2 = true ↔ u.Scheme = c)) ∧
    (MatcherScheme.Match ⟨lit "spiffe"⟩
        (urlOf (lit "Spiffe") (lit "mytrustdomain") (lit "/myidentity"))).2 = false ∧
    (MatcherScheme.Match ⟨lit "spiffe"⟩
        (urlOf (lit "spiffe") (lit "mytrustdomain") (lit "/myidentity"))).2 = true := by
  refine ⟨fun u c => ⟨rfl, ?_⟩, by decide, by decide⟩
  simp [MatcherScheme.Match]

/-- C6: for a non-empty separator `ParserSplit{sep}.Parse(s)` is the leftmost split:
`[s]` when `sep` does not occur in `s`; `a` followed by `Parse(rest)` when
`s = a ++ sep ++ rest` at the leftmost occurrence of `sep`; and the number of segments
is one more than `strings.Count(s, sep)`, the number of non-overlapping occurrences. -/
theorem ParserSplit_Parse_leftmost (s sep : GoString) (hsep : sep ≠ []) :
    (¬ sep <:+: s → ParserSplit.Parse ⟨sep⟩ s = [s]) ∧
    (∀ a rest : GoString, s = a ++ sep ++ rest →
      (∀ a2 r2 : GoString, s = a2 ++ sep ++ r2 → a.length ≤ a2.length) →
      ParserSplit.Parse ⟨sep⟩ s = a :: ParserSplit.Parse ⟨sep⟩ rest) ∧
    (ParserSplit.Parse ⟨sep⟩ s).length = Count s sep + 1 := by
  simp only [ParserSplit.Parse]
  refine ⟨fun hno => ?_, fun a rest hs hleft => ?_, Split_length sep hsep s.length s (Nat.le_refl _)⟩
  · cases h : Index s sep with
    | none => exact Split_of_Index_none sep hsep s h
    | some m =>
      exfalso
      exact hno ⟨_, _, (Index_some sep s m h).1.symm⟩
  · have h := Index_leftmost sep s a rest hs hleft
    rw [Split_of_Index_some sep hsep s a.length h]
    have ht : s.take a.length = a := by
      rw [hs, List.append_assoc, List.take_left]
    have hd : s.drop (a.length + sep.length) = rest := by
      rw [hs, ← List.length_append, List.drop_left]
    rw [ht, hd]

/-- C6 at `s = "a.b..c"`, `sep = "."`: the leftmost `.` follows `a`, so the split is
`a` followed by the split of `b..c`; there are three occurrences and four segments. -/
theorem ParserSplit_Parse_leftmost_witness :
    lit "." ≠ [] ∧
    ParserSplit.Parse ⟨lit "."⟩ (lit "a.b..c")
      = lit "a" :: ParserSplit.Parse ⟨lit "."⟩ (lit "b..c") ∧
    (ParserSplit.Parse ⟨lit "."⟩ (lit "a.b..c")).length = Count (lit "a.b..c") (lit ".") + 1 :=
  ⟨by decide,
   (ParserSplit_Parse_leftmost (lit "a.b..c") (lit ".") (by decide)).2.1 (lit "a") (lit "b..c")
      (by decide)
      (fun a2 r2 h => by
        cases a2 with
        | nil =>
          exfalso
          have h1 : (lit "a.b..c").head? = (([] : GoString) ++ lit "." ++ r2).head? :=
            congrArg List.head? h
          have h2 : (([] : GoString) ++ lit "." ++ r2).head? = some 46 := rfl
          rw [h2] at h1
          exact absurd h1 (by decide)
        | cons a0 a1 => exact Nat.succ_le_succ (Nat.zero_le _)),
   (ParserSplit_Parse_leftmost (lit "a.b..c") (lit ".") (by decide)).2.2⟩

/-- C7: for a non-empty separator `ParserSplit{sep}.Parse(s)` is a non-empty sequence,
its segments joined with `sep` give back `s`, no segment contains `sep`, and the parse
of the empty string is the one segment `""`. -/
theorem ParserSplit_Parse_join (s sep : GoString) (hsep : sep ≠ []) :
    ParserSplit.Parse ⟨sep⟩ s ≠ [] ∧
    Join (ParserSplit.Parse ⟨sep⟩ s) sep = s ∧
    (∀ seg ∈ ParserSplit.Parse ⟨sep⟩ s, ¬ sep <:+: seg) ∧
    ParserSplit.Parse ⟨sep⟩ [] = [[]] := by
  simp only [ParserSplit.Parse]
  obtain ⟨h1, h2, h3⟩ := Split_join sep hsep s.length s (Nat.le_refl _)
  refine ⟨h1, h2, h3, ?_⟩
  apply Split_of_Index_none sep hsep
  cases h : Index [] sep with
  | none => rfl
  | some m =>
    have := (Index_some sep [] m h).2.1
    have hpos : 0 < sep.length := List.length_pos.mpr hsep
    simp only [List.length_nil] at this
    omega

/-- C7 at `s = ".claim1..claim2."`, `sep = "."`: five segments, three of them empty,
that join back to `s`. -/
theorem ParserSplit_Parse_join_witness :
    lit "." ≠ [] ∧
    ParserSplit.Parse ⟨lit "."⟩ (lit ".claim1..claim2.")
      = [lit "", lit "claim1", lit "", lit "claim2", lit ""] ∧
    Join (ParserSplit.Parse ⟨lit "."⟩ (lit ".claim1..claim2.")) (lit ".")
      = lit ".claim1..claim2." :=
  ⟨by decide, by decide,
   (ParserSplit_Parse_join (lit ".claim1..claim2.") (lit ".") (by decide)).2.1⟩

/-- C8: `LocatorSanEmail.Locate` walks `cert.EmailAddresses` in order, drops the
addresses the matcher rejects and keeps the string the matcher returned for each
accepted one; the result is no longer than the field and is empty when every address
is rejected. -/
theorem LocatorSanEmail_Locate_spec (l : LocatorSanEmail) (cert : Certificate)
    (M : Matcher GoString) :
    l.Locate cert M
      = (cert.EmailAddresses.filter (fun e => (M.Match e).2)).map (fun e => (M.Match e).1) ∧
    (l.Locate cert M).length ≤ cert.EmailAddresses.length ∧
    ((∀ e ∈ cert.EmailAddresses, (M.Match e).2 = false) → l.Locate cert M = []) := by
  have h : l.Locate cert M
      = (cert.EmailAddresses.filter (fun e => (M.Match e).2)).map (fun e => (M.Match e).1) := by
    unfold LocatorSanEmail.Locate
    rw [foldl_keep_filter _ (fun e => (M.Match e).2) (fun e => (M.Match e).1), List.nil_append]
    intro r e
    rcases h : M.Match e with ⟨v, b⟩
    cases b <;> simp
  refine ⟨h, ?_, fun hall => ?_⟩
  · rw [h, List.length_map]
    exact List.length_filter_le _ _
  · rw [h, List.filter_eq_nil_iff.mpr (fun e he => by simp [hall e he])]
    rfl

/-- C8 at the emails `hello@nomatch.com`, `hi@nomatch.org` with the suffix `@ziti.dev`:
every address is rejected and nothing is located. -/
theorem LocatorSanEmail_Locate_spec_witness :
    (∀ e ∈ (certWithEmails [lit "hello@nomatch.com", lit "hi@nomatch.org"]).EmailAddresses,
      ((MatcherSuffix.toMatcher ⟨lit "@ziti.dev"⟩).Match e).2 = false) ∧
    LocatorSanEmail.Locate ⟨⟩ (certWithEmails [lit "hello@nomatch.com", lit "hi@nomatch.org"])
      (MatcherSuffix.toMatcher ⟨lit "@ziti.dev"⟩) = [] :=
  ⟨by decide,
   (LocatorSanEmail_Locate_spec ⟨⟩ (certWithEmails [lit "hello@nomatch.com", lit "hi@nomatch.org"])
      (MatcherSuffix.toMatcher ⟨lit "@ziti.dev"⟩)).2.2 (by decide)⟩

/-- C9: `LocatorSanUri.Locate` walks `cert.URIs` in order, drops the URIs the matcher
rejects and keeps the string form of the URI the matcher returned for each accepted
one; it is empty when every URI is rejected. -/
theorem LocatorSanUri_Locate_spec (urlString : URL → GoString) (l : LocatorSanUri)
    (cert : Certificate) (M : Matcher URL) :
    l.Locate urlString cert M
      = (cert.URIs.filter (fun u => (M.Match u).2)).map (fun u => urlString (M.Match u).1) ∧
    ((∀ u ∈ cert.URIs, (M.Match u).2 = false) → l.Locate urlString cert M = []) := by
  have h : l.Locate urlString cert M
      = (cert.URIs.filter (fun u => (M.Match u).2)).map (fun u => urlString (M.Match u).1) := by
    unfold LocatorSanUri.Locate
    rw [foldl_keep_filter _ (fun u => (M.Match u).2) (fun u => urlString (M.Match u).1),
      List.nil_append]
    intro r u
    rcases h : M.Match u with ⟨v, b⟩
    cases b <;> simp
  refine ⟨h, fun hall => ?_⟩
  rw [h, List.filter_eq_nil_iff.mpr (fun u hu => by simp [hall u hu])]
  rfl

/-- C9 at the URI `nomatch://not/here/man` with the scheme `spiffe` (and the scheme as
the string form): the URI is rejected and nothing is located. -/
theorem LocatorSanUri_Locate_spec_witness :
    (∀ u ∈ (certWithURIs [urlOf (lit "nomatch") (lit "not") (lit "/here/man")]).URIs,
      ((MatcherScheme.toMatcher ⟨lit "spiffe"⟩).Match u).2 = false) ∧
    LocatorSanUri.Locate URL.Scheme ⟨⟩
      (certWithURIs [urlOf (lit "nomatch") (lit "not") (lit "/here/man")])
      (MatcherScheme.toMatcher ⟨lit "spiffe"⟩) = [] :=
  ⟨by decide,
   (LocatorSanUri_Locate_spec URL.Scheme ⟨⟩
      (certWithURIs [urlOf (lit "nomatch") (lit "not") (lit "/here/man")])
      (MatcherScheme.toMatcher ⟨lit "spiffe"⟩)).2 (by decide)⟩

/-- C10: `LocatorCommonName.Locate` returns at most one string: `[v]` when the matcher
returns `(v, true)` on the common name and nothing when it rejects the common name;
two certificates with the same common name are located alike. -/
theorem LocatorCommonName_Locate_spec (l : LocatorCommonName) (cert : Certificate)
    (M : Matcher GoString) :
    (l.Locate cert M).length ≤ 1 ∧
    (∀ v, M.Match cert.Subject.CommonName = (v, true) → l.Locate cert M = [v]) ∧
    ((M.Match cert.Subject.CommonName).2 = false → l.Locate cert M = []) ∧
    (∀ cert2 : Certificate, cert2.Subject.CommonName = cert.Subject.CommonName →
      l.Locate cert2 M = l.Locate cert M) := by
  unfold LocatorCommonName.Locate
  refine ⟨?_, ?_, ?_, ?_⟩
  · rcases h : M.Match cert.Subject.CommonName with ⟨v, b⟩
    cases b <;> simp
  · intro v h
    rw [h]
  · rcases h : M.Match cert.Subject.CommonName with ⟨v, b⟩
    cases b <;> simp
  · intro cert2 h
    rw [h]

/-- C10 at the common name `SENTINEL:claim1` with the prefix `SENTINEL:`: the one
located string is `claim1`. -/
theorem LocatorCommonName_Locate_spec_witness :
    (MatcherPrefix.toMatcher ⟨lit "SENTINEL:"⟩).Match
        (certWithCommonName (lit "SENTINEL:claim1")).Subject.CommonName = (lit "claim1", true) ∧
    LocatorCommonName.Locate ⟨⟩ (certWithCommonName (lit "SENTINEL:claim1"))
      (MatcherPrefix.toMatcher ⟨lit "SENTINEL:"⟩) = [lit "claim1"] :=
  ⟨by decide,
   (LocatorCommonName_Locate_spec ⟨⟩ (certWithCommonName (lit "SENTINEL:claim1"))
      (MatcherPrefix.toMatcher ⟨lit "SENTINEL:"⟩)).2.1 (lit "claim1") (by decide)⟩

/-- C11: `MatcherAll.Match(v)` returns `(v, true)` for every value of every type. -/
theorem MatcherAll_Match_spec {T : Type} (m : MatcherAll T) (v : T) :
    m.Match v = (v, true) := by
  rfl

/-- C12: `ParserNoOp.Parse(s)` returns the one-element sequence `[s]`, also for the empty
string. -/
theorem ParserNoOp_Parse_spec :
    (∀ (p : ParserNoOp) (s : GoString), p.Parse s = [s]) ∧
    ParserNoOp.Parse ⟨⟩ (lit "") = [lit ""] ∧
    ParserNoOp.Parse ⟨⟩ (lit "some.really.long.claim") = [lit "some.really.long.claim"] := by
  exact ⟨fun _ _ => rfl, rfl, rfl⟩

/-- C13: a `ProviderBasic` whose `Definitions` list is empty returns no claim, for every
certificate. -/
theorem ProviderBasic_Claims_empty (cert : Certificate) :
    ProviderBasic.Claims ⟨[]⟩ cert = [] := by
  rfl

/-- C14: the provider `{LocatorSanUri, MatcherScheme{c}, ParserNoOp}` returns the string
forms of the URIs of `cert.URIs` whose scheme is `c`, one claim each, in the order of the
field, whatever the string form is. The URIs `spiffe://mytrustdomain/myidentity1`,
`nomatch://not/here/man`, `spiffe://mytrustdomain/myidentity2` with `c = "spiffe"` give
the string forms of the first and the third. -/
theorem uriScheme_provider_claims :
    (∀ (urlString : URL → GoString) (c : GoString) (cert : Certificate),
      ProviderBasic.Claims ⟨[uriSchemeNoOp urlString c]⟩ cert
        = (cert.URIs.filter (fun u => decide (u.Scheme = c))).map urlString) ∧
    (∀ urlString : URL → GoString,
      ProviderBasic.Claims ⟨[uriSchemeNoOp urlString (lit "spiffe")]⟩ (certWithURIs threeTestURIs)
        = [urlString (urlOf (lit "spiffe") (lit "mytrustdomain") (lit "/myidentity1")),
           urlString (urlOf (lit "spiffe") (lit "mytrustdomain") (lit "/myidentity2"))]) ∧
    ProviderBasic.Claims ⟨[uriSchemeNoOp schemeHostPathString (lit "spiffe")]⟩
        (certWithURIs threeTestURIs)
      = [lit "spiffe://mytrustdomain/myidentity1", lit "spiffe://mytrustdomain/myidentity2"] := by
  have huniv : ∀ (urlString : URL → GoString) (c : GoString) (cert : Certificate),
      ProviderBasic.Claims ⟨[uriSchemeNoOp urlString c]⟩ cert
        = (cert.URIs.filter (fun u => decide (u.Scheme = c))).map urlString := by
    intro urlString c cert
    rw [ProviderBasic_Claims_single]
    simp only [uriSchemeNoOp, DefinitionLMP.toDefinition, LocatorSanUri.toLocator]
    rw [DefinitionLMP_Claims_eq]
    simp only []
    rw [LocatorSanUri_Locate_eq]
    simp only [MatcherScheme.toMatcher, MatcherScheme.Match, ParserNoOp.toParser]
    have hfilter : cert.URIs.filter (fun u => u.Scheme == c)
        = cert.URIs.filter (fun u => decide (u.Scheme = c)) := by
      apply List.filter_congr
      intro u _
      rw [Bool.eq_iff_iff]
      simp
    rw [hfilter]
    exact flatMap_singleton _ _ (fun _ => rfl)
  refine ⟨huniv, fun urlString => ?_, by decide⟩
  rw [huniv]
  have hf : (certWithURIs threeTestURIs).URIs.filter (fun u => decide (u.Scheme = lit "spiffe"))
      = [urlOf (lit "spiffe") (lit "mytrustdomain") (lit "/myidentity1"),
         urlOf (lit "spiffe") (lit "mytrustdomain") (lit "/myidentity2")] := by
    decide
  rw [hf]
  rfl

/-- C15: the provider `{LocatorSanEmail, MatcherSuffix{x}, ParserSplit{sep}}` returns, in
the order of `cert.EmailAddresses`, the split segments of each address that ends with `x`
with that trailing `x` removed, and nothing for the other addresses. The emails
`hello@nomatch.com`, `claim1.claim2@ziti.dev` with `x = "@ziti.dev"`, `sep = "."` give
`claim1`, `claim2`. -/
theorem emailSuffixSplit_provider_claims :
    (∀ (x sep : GoString) (cert : Certificate),
      ProviderBasic.Claims ⟨[emailSuffixSplit x sep]⟩ cert
        = (cert.EmailAddresses.filter (fun e => decide (x <:+ e))).flatMap
            (fun e => ParserSplit.Parse ⟨sep⟩ (e.take (e.length - x.length)))) ∧
    (∀ x e : GoString, x <:+ e → e.take (e.length - x.length) ++ x = e) ∧
    ProviderBasic.Claims ⟨[emailSuffixSplit (lit "@ziti.dev") (lit ".")]⟩
        (certWithEmails [lit "hello@nomatch.com", lit "claim1.claim2@ziti.dev"])
      = [lit "claim1", lit "claim2"] := by
  refine ⟨fun x sep cert => ?_, fun x e h => ?_, by decide⟩
  · rw [ProviderBasic_Claims_single, emailSuffixSplit_Claims_eq]
  · conv_lhs => rhs; rw [List.suffix_iff_eq_drop.mp h]
    exact List.take_append_drop _ _

/-- C16, as stated, fails for a separator of two bytes: with `p = "SENTINEL:"`,
`sep = "aa"` and the claims `a`, `b`, neither of which contains `aa`, the common name
is `SENTINEL:aaab` and the provider returns the empty string and `ab`. -/
theorem commonName_roundtrip_counterexample :
    lit "aa" ≠ [] ∧ [lit "a", lit "b"] ≠ [] ∧
    (∀ c ∈ [lit "a", lit "b"], ¬ lit "aa" <:+: c) ∧
    lit "SENTINEL:" ++ Join [lit "a", lit "b"] (lit "aa") = lit "SENTINEL:aaab" ∧
    ProviderBasic.Claims
        ⟨[commonNamePrefix (lit "SENTINEL:") (ParserSplit.toParser ⟨lit "aa"⟩)]⟩
        (certWithCommonName (lit "SENTINEL:" ++ Join [lit "a", lit "b"] (lit "aa")))
      = [lit "", lit "ab"] ∧
    ProviderBasic.Claims
        ⟨[commonNamePrefix (lit "SENTINEL:") (ParserSplit.toParser ⟨lit "aa"⟩)]⟩
        (certWithCommonName (lit "SENTINEL:" ++ Join [lit "a", lit "b"] (lit "aa")))
      ≠ [lit "a", lit "b"] := by
  decide

/-- C16, amended: for a non-empty separator `sep` and a non-empty list of claims `cs` in
which no claim contains `sep` and, in every claim but the last followed by `sep`, `sep`
occurs only at the end, a certificate whose common name is `p ++ join(cs, sep)` makes the
provider `{LocatorCommonName, MatcherPrefix{p}, ParserSplit{sep}}` return exactly `cs`,
and so does `MatcherAll` in place of the prefix matcher when `p` is empty. -/
theorem commonName_roundtrip (p sep : GoString) (cs : List GoString) (cert : Certificate)
    (hsep : sep ≠ []) (hcs : cs ≠ [])
    (hfree : ∀ c ∈ cs, ¬ sep <:+: c)
    (hleft : ∀ c ∈ cs.dropLast, ∀ a r : GoString, c ++ sep = a ++ sep ++ r →
      c.length ≤ a.length)
    (hcn : cert.Subject.CommonName = p ++ Join cs sep) :
    ProviderBasic.Claims ⟨[commonNamePrefix p (ParserSplit.toParser ⟨sep⟩)]⟩ cert = cs ∧
    (p = [] →
      ProviderBasic.Claims ⟨[commonNameAll (ParserSplit.toParser ⟨sep⟩)]⟩ cert = cs) := by
  have hsplit := Split_Join sep hsep cs hcs hfree hleft
  constructor
  · unfold commonNamePrefix
    rw [commonName_Claims_eq]
    have hp : HasPrefix cert.Subject.CommonName p = true := by
      rw [HasPrefix_iff, hcn]
      exact List.prefix_append _ _
    have ht : TrimPrefix cert.Subject.CommonName p = Join cs sep := by
      simp only [TrimPrefix, hp, if_true]
      rw [hcn, List.drop_left]
    simp only [MatcherPrefix.toMatcher, MatcherPrefix.Match, hp, if_true, ht,
      ParserSplit.toParser, ParserSplit.Parse]
    exact hsplit
  · intro hpe
    unfold commonNameAll
    rw [commonName_Claims_eq]
    simp only [MatcherAll.toMatcher, MatcherAll.Match, if_true, ParserSplit.toParser,
      ParserSplit.Parse]
    rw [hcn, hpe, List.nil_append]
    exact hsplit

/-- C16, amended, at `p = "SENTINEL:"`, `sep = "."`, the claims `claim1`, `claim2`,
`claim3` and the common name `SENTINEL:claim1.claim2.claim3`. -/
theorem commonName_roundtrip_witness :
    (certWithCommonName (lit "SENTINEL:claim1.claim2.claim3")).Subject.CommonName
      = lit "SENTINEL:" ++ Join [lit "claim1", lit "claim2", lit "claim3"] (lit ".") ∧
    ProviderBasic.Claims
        ⟨[commonNamePrefix (lit "SENTINEL:") (ParserSplit.toParser ⟨lit "."⟩)]⟩
        (certWithCommonName (lit "SENTINEL:claim1.claim2.claim3"))
      = [lit "claim1", lit "claim2", lit "claim3"] :=
  ⟨by decide,
   (commonName_roundtrip (lit "SENTINEL:") (lit ".") [lit "claim1", lit "claim2", lit "claim3"]
      (certWithCommonName (lit "SENTINEL:claim1.claim2.claim3"))
      (by decide) (by decide) (by decide)
      (fun c hc a r h =>
        leftmost_of_single_byte 46 c
          ((by decide : ∀ c ∈ [lit "claim1", lit "claim2", lit "claim3"].dropLast,
              ¬ [(46 : UInt8)] <:+: c) c hc)
          a r h)
      (by decide)).1⟩

/-- C17: when the common name does not start with `p`, the provider
`{LocatorCommonName, MatcherPrefix{p}, P}` returns no claim, whatever the parser `P`,
and nothing is located for the parser to be applied to. -/
theorem commonName_prefix_mismatch (p : GoString) (P : Parser) (cert : Certificate)
    (h : ¬ p <+: cert.Subject.CommonName) :
    ProviderBasic.Claims ⟨[commonNamePrefix p P]⟩ cert = [] ∧
    LocatorCommonName.Locate ⟨⟩ cert (MatcherPrefix.toMatcher ⟨p⟩) = [] := by
  have hp : HasPrefix cert.Subject.CommonName p = false := by
    rw [← Bool.not_eq_true, HasPrefix_iff]
    exact h
  constructor
  · unfold commonNamePrefix
    rw [commonName_Claims_eq]
    simp [MatcherPrefix.toMatcher, MatcherPrefix.Match, hp]
  · rw [LocatorCommonName_Locate_eq]
    simp [MatcherPrefix.toMatcher, MatcherPrefix.Match, hp]

/-- C17 at `p = "SENTINEL:"`, the split on `.` and the common name
`IGOBOOM:claim1.claim2.claim3`: no claim. -/
theorem commonName_prefix_mismatch_witness :
    ¬ lit "SENTINEL:" <+: (certWithCommonName (lit "IGOBOOM:claim1.claim2.claim3")).Subject.CommonName ∧
    ProviderBasic.Claims ⟨[commonNamePrefix (lit "SENTINEL:") (ParserSplit.toParser ⟨lit "."⟩)]⟩
      (certWithCommonName (lit "IGOBOOM:claim1.claim2.claim3")) = [] :=
  ⟨by decide,
   (commonName_prefix_mismatch (lit "SENTINEL:") (ParserSplit.toParser ⟨lit "."⟩)
      (certWithCommonName (lit "IGOBOOM:claim1.claim2.claim3")) (by decide)).1⟩

/-- C18: the provider `{LocatorCommonName, MatcherAll, ParserNoOp}` returns exactly one
claim, the certificate's common name as it is; for an empty common name that is the
one-element sequence of the empty string, and for `some.really.long.claim` it is
`some.really.long.claim`. -/
theorem commonName_all_noop_claims :
    (∀ cert : Certificate,
      ProviderBasic.Claims ⟨[commonNameAll (ParserNoOp.toParser ⟨⟩)]⟩ cert
        = [cert.Subject.CommonName]) ∧
    ProviderBasic.Claims ⟨[commonNameAll (ParserNoOp.toParser ⟨⟩)]⟩ (certWithCommonName (lit ""))
      = [lit ""] ∧
    ProviderBasic.Claims ⟨[commonNameAll (ParserNoOp.toParser ⟨⟩)]⟩
        (certWithCommonName (lit "some.really.long.claim"))
      = [lit "some.really.long.claim"] := by
  refine ⟨fun cert => ?_, by decide, by decide⟩
  unfold commonNameAll
  rw [commonName_Claims_eq]
  rfl

/-- C19: with the empty separator `ParserSplit{""}.Parse(s)` returns the UTF-8 sequences
of `s` in order: as many segments as `s` has characters (`utf8.RuneCountInString`), each
segment one character, and the segments concatenated are `s`; a string of ASCII bytes is
split into its bytes. The empty input gives the empty sequence, while every non-empty
separator gives the one segment `""`, so a matched empty common name yields no claim with
the empty separator and the one claim `""` with any other. -/
theorem ParserSplit_Parse_empty_separator :
    (∀ s : GoString,
      (ParserSplit.Parse ⟨[]⟩ s).length = RuneCountInString s ∧
      (∀ seg ∈ ParserSplit.Parse ⟨[]⟩ s, RuneCountInString seg = 1) ∧
      (ParserSplit.Parse ⟨[]⟩ s).flatten = s) ∧
    (∀ s : GoString, (∀ b ∈ s, b.toNat < 0x80) →
      ParserSplit.Parse ⟨[]⟩ s = s.map (fun b => [b])) ∧
    ParserSplit.Parse ⟨[]⟩ [] = [] ∧
    (∀ sep : GoString, sep ≠ [] → ParserSplit.Parse ⟨sep⟩ [] = [[]]) ∧
    (∀ cert : Certificate, cert.Subject.CommonName = [] →
      ProviderBasic.Claims ⟨[commonNameAll (ParserSplit.toParser ⟨[]⟩)]⟩ cert = [] ∧
      ∀ sep : GoString, sep ≠ [] →
        ProviderBasic.Claims ⟨[commonNameAll (ParserSplit.toParser ⟨sep⟩)]⟩ cert = [[]]) ∧
    ParserSplit.Parse ⟨lit ""⟩ (lit "a.é") = [lit "a", lit ".", lit "é"] := by
  refine ⟨fun s => Split_empty_spec s.length s (Nat.le_refl _), Split_empty_ascii,
    Split_empty_nil, Split_nil, fun cert hcn => ⟨?_, fun sep hsep => ?_⟩, by decide⟩
  · unfold commonNameAll
    rw [commonName_Claims_eq]
    simp only [MatcherAll.toMatcher, MatcherAll.Match, if_true, ParserSplit.toParser,
      ParserSplit.Parse]
    rw [hcn]
    exact Split_empty_nil
  · unfold commonNameAll
    rw [commonName_Claims_eq]
    simp only [MatcherAll.toMatcher, MatcherAll.Match, if_true, ParserSplit.toParser,
      ParserSplit.Parse]
    rw [hcn]
    exact Split_nil sep hsep

/-- C19 at the ASCII string `claim`, split into its five bytes by the empty separator,
and at the separator `.`, for which the empty string gives the one segment `""`. -/
theorem ParserSplit_Parse_empty_separator_witness :
    (∀ b ∈ lit "claim", b.toNat < 0x80) ∧
    ParserSplit.Parse ⟨[]⟩ (lit "claim") = [lit "c", lit "l", lit "a", lit "i", lit "m"] ∧
    lit "." ≠ [] ∧ ParserSplit.Parse ⟨lit "."⟩ [] = [[]] :=
  ⟨by decide,
   (ParserSplit_Parse_empty_separator.2.1 (lit "claim") (by decide)).trans (by decide),
   by decide,
   ParserSplit_Parse_empty_separator.2.2.2.1 (lit ".") (by decide)⟩

/-- C20: every claim the definition `{LocatorSanEmail, MatcherSuffix{x}, ParserSplit{sep}}`
returns is a contiguous substring of the part before the trailing `x` of some element of
`cert.EmailAddresses` that ends with `x`, for every separator. -/
theorem emailSuffixSplit_claims_substring (x sep : GoString) (cert : Certificate)
    (claim : GoString) (h : claim ∈ (emailSuffixSplit x sep).Claims cert) :
    ∃ e ∈ cert.EmailAddresses, ∃ r : GoString, e = r ++ x ∧ claim <:+: r := by
  rw [emailSuffixSplit_Claims_eq, List.mem_flatMap] at h
  obtain ⟨e, he, hclaim⟩ := h
  rw [List.mem_filter, decide_eq_true_eq] at he
  refine ⟨e, he.1, e.take (e.length - x.length), ?_, Split_infix _ sep claim hclaim⟩
  conv_lhs => rw [← List.take_append_drop (e.length - x.length) e]
  rw [← List.suffix_iff_eq_drop.mp he.2]

/-- C20 at the emails `hello@nomatch.com`, `claim1.claim2@ziti.dev`, the suffix
`@ziti.dev`, the separator `.` and the claim `claim2`. -/
theorem emailSuffixSplit_claims_substring_witness :
    lit "claim2" ∈ (emailSuffixSplit (lit "@ziti.dev") (lit ".")).Claims
        (certWithEmails [lit "hello@nomatch.com", lit "claim1.claim2@ziti.dev"]) ∧
    ∃ e ∈ (certWithEmails [lit "hello@nomatch.com", lit "claim1.claim2@ziti.dev"]).EmailAddresses,
      ∃ r : GoString, e = r ++ lit "@ziti.dev" ∧ lit "claim2" <:+: r :=
  ⟨by decide,
   emailSuffixSplit_claims_substring (lit "@ziti.dev") (lit ".")
      (certWithEmails [lit "hello@nomatch.com", lit "claim1.claim2@ziti.dev"])
      (lit "claim2") (by decide)⟩

end X509Claims
